import Mathlib

/-!
Verification development for the axis-aligned cuboid set-algebra engine of
`aoc_util` (`src/aoc_util/src/cuboid.rs`).

The shallow embedding below translates the Rust source:
* `Cuboid` with its six `i64` coordinates becomes a structure over `Int`
  (the puzzle domain never approaches 64-bit overflow, and the source
  performs no wrapping arithmetic).
* Fallible construction (`Cuboid::new`) returns `Option Cuboid`.
* The `.unwrap()` calls inside `intersection` and `extensions` are modelled
  by direct struct construction; theorems below prove that the constructed
  boxes are valid, i.e. that the corresponding `Cuboid::new` call succeeds,
  so the unwrap can never panic on the inputs the claims quantify over.
* `Vec::swap_remove` is modelled by `swapRemove`.
* The `while` loop of `PolyCuboid::insert` is modelled with an explicit
  fuel parameter (`none` models divergence); a theorem shows the chosen
  fuel always suffices on valid inputs, which is exactly the termination
  of the Rust loop.
* Rust `i64` division truncates toward zero; the only division in the
  source (`Cuboid::split`) is applied to nonnegative operands on every
  path the claims touch, where truncation and Lean's `Int` division agree.
-/

/-- The `Cuboid` struct: closed integer ranges on three axes. -/
structure Cuboid where
  x0 : Int
  x1 : Int
  y0 : Int
  y1 : Int
  z0 : Int
  z1 : Int
deriving DecidableEq, Repr, Inhabited

namespace Cuboid

/-- The construction invariant enforced by `Cuboid::new`. -/
def valid (c : Cuboid) : Prop := c.x0 ≤ c.x1 ∧ c.y0 ≤ c.y1 ∧ c.z0 ≤ c.z1

instance (c : Cuboid) : Decidable c.valid := by unfold valid; infer_instance

/-- `Cuboid::new`: fails iff some axis has `lo > hi`. -/
def new (x0 x1 y0 y1 z0 z1 : Int) : Option Cuboid :=
  if x0 > x1 ∨ y0 > y1 ∨ z0 > z1 then none
  else some ⟨x0, x1, y0, y1, z0, z1⟩

/-- The final step of `Cuboid::from_str` (line 52 of the source): after the
three coordinate pairs parse successfully, the result is `Cuboid::new`
applied to the six parsed integers.  The text scanning itself is out of
scope of the claims, which are conditioned on successful parsing. -/
def fromStrParsed (x0 x1 y0 y1 z0 z1 : Int) : Option Cuboid :=
  Cuboid.new x0 x1 y0 y1 z0 z1

/-- `Cuboid::contains`. -/
def contains (s o : Cuboid) : Bool :=
  decide (s.x0 ≤ o.x0 ∧ s.x1 ≥ o.x1 ∧ s.y0 ≤ o.y0 ∧ s.y1 ≥ o.y1 ∧
          s.z0 ≤ o.z0 ∧ s.z1 ≥ o.z1)

/-- `Cuboid::intersects`: per axis, `left` is the box with the smaller `lo`;
the boxes are separated on that axis iff `left.hi < right.lo`. -/
def intersects (s o : Cuboid) : Bool :=
  if (if s.x0 ≤ o.x0 then s.x1 < o.x0 else o.x1 < s.x0) then false
  else if (if s.y0 ≤ o.y0 then s.y1 < o.y0 else o.y1 < s.y0) then false
  else if (if s.z0 ≤ o.z0 then s.z1 < o.z0 else o.z1 < s.z0) then false
  else true

/-- `Cuboid::intersection`: same separation tests as `intersects`; on the
happy path the Rust code runs `Cuboid::new(...).unwrap()` on the
max/min segments, modelled here by direct construction (validity of the
result under valid inputs is proved below). -/
def intersection (s o : Cuboid) : Option Cuboid :=
  if (if s.x0 ≤ o.x0 then s.x1 < o.x0 else o.x1 < s.x0) then none
  else if (if s.y0 ≤ o.y0 then s.y1 < o.y0 else o.y1 < s.y0) then none
  else if (if s.z0 ≤ o.z0 then s.z1 < o.z0 else o.z1 < s.z0) then none
  else some ⟨max s.x0 o.x0, min s.x1 o.x1,
             max s.y0 o.y0, min s.y1 o.y1,
             max s.z0 o.z0, min s.z1 o.z1⟩

/-- `Cuboid::volume`. -/
def volume (c : Cuboid) : Int :=
  (c.x1 - c.x0 + 1) * (c.y1 - c.y0 + 1) * (c.z1 - c.z0 + 1)

/-- The 26 candidate coordinate tuples of `Cuboid::extensions`, in source
order (6 face-adjacent, 4 + 4 edge-adjacent, 12 corner-adjacent). -/
def candList (s o : Cuboid) : List Cuboid :=
  [ -- FA: X+, Y+, X-, Y-, Z+, Z-
    ⟨s.x1 + 1, o.x1, s.y0, s.y1, s.z0, s.z1⟩,
    ⟨s.x0, s.x1, s.y1 + 1, o.y1, s.z0, s.z1⟩,
    ⟨o.x0, s.x0 - 1, s.y0, s.y1, s.z0, s.z1⟩,
    ⟨s.x0, s.x1, o.y0, s.y0 - 1, s.z0, s.z1⟩,
    ⟨s.x0, s.x1, s.y0, s.y1, s.z1 + 1, o.z1⟩,
    ⟨s.x0, s.x1, s.y0, s.y1, o.z0, s.z0 - 1⟩,
    -- AA Above
    ⟨s.x1 + 1, o.x1, s.y0, s.y1, s.z1 + 1, o.z1⟩,
    ⟨s.x0, s.x1, s.y1 + 1, o.y1, s.z1 + 1, o.z1⟩,
    ⟨o.x0, s.x0 - 1, s.y0, s.y1, s.z1 + 1, o.z1⟩,
    ⟨s.x0, s.x1, o.y0, s.y0 - 1, s.z1 + 1, o.z1⟩,
    -- AA Below
    ⟨s.x1 + 1, o.x1, s.y0, s.y1, o.z0, s.z0 - 1⟩,
    ⟨s.x0, s.x1, s.y1 + 1, o.y1, o.z0, s.z0 - 1⟩,
    ⟨o.x0, s.x0 - 1, s.y0, s.y1, o.z0, s.z0 - 1⟩,
    ⟨s.x0, s.x1, o.y0, s.y0 - 1, o.z0, s.z0 - 1⟩,
    -- Corners
    ⟨s.x1 + 1, o.x1, s.y1 + 1, o.y1, s.z1 + 1, o.z1⟩,
    ⟨o.x0, s.x0 - 1, s.y1 + 1, o.y1, s.z1 + 1, o.z1⟩,
    ⟨o.x0, s.x0 - 1, o.y0, s.y0 - 1, s.z1 + 1, o.z1⟩,
    ⟨s.x1 + 1, o.x1, o.y0, s.y0 - 1, s.z1 + 1, o.z1⟩,
    ⟨s.x1 + 1, o.x1, s.y1 + 1, o.y1, s.z0, s.z1⟩,
    ⟨o.x0, s.x0 - 1, s.y1 + 1, o.y1, s.z0, s.z1⟩,
    ⟨o.x0, s.x0 - 1, o.y0, s.y0 - 1, s.z0, s.z1⟩,
    ⟨s.x1 + 1, o.x1, o.y0, s.y0 - 1, s.z0, s.z1⟩,
    ⟨s.x1 + 1, o.x1, s.y1 + 1, o.y1, o.z0, s.z0 - 1⟩,
    ⟨o.x0, s.x0 - 1, s.y1 + 1, o.y1, o.z0, s.z0 - 1⟩,
    ⟨o.x0, s.x0 - 1, o.y0, s.y0 - 1, o.z0, s.z0 - 1⟩,
    ⟨s.x1 + 1, o.x1, o.y0, s.y0 - 1, o.z0, s.z0 - 1⟩ ]

/-- The emission filter of `Cuboid::extensions`: a candidate is kept unless
it falls outside `other` on some axis. -/
def keep (o c : Cuboid) : Bool :=
  decide (¬ (c.x0 > o.x1 ∨ c.x1 < o.x0 ∨ c.y0 > o.y1 ∨ c.y1 < o.y0 ∨
             c.z0 > o.z1 ∨ c.z1 < o.z0))

/-- `Cuboid::extensions`: keep the candidates that pass the filter.  The
Rust code runs `Cuboid::new(...).unwrap()` on each kept tuple; this is
modelled by building the struct directly, and the theorems below prove
every kept tuple satisfies the `new` invariant. -/
def extensions (s o : Cuboid) : List Cuboid :=
  (candList s o).filter (keep o)

/-- `Cuboid::difference`. -/
def difference (s o : Cuboid) : List Cuboid :=
  if o.contains s then []
  else
    match s.intersection o with
    | some i => (i.extensions s).filterMap (fun e => s.intersection e)
    | none => [s]

/-- `Cuboid::union`. -/
def union (s o : Cuboid) : List Cuboid :=
  if s.contains o then [s]
  else if o.contains s then [o]
  else if s.intersects o then s :: o.difference s
  else [s, o]

/-- `Cuboid::split`: fails when some axis has zero extent, and otherwise
builds the 8 octants via `Cuboid::new` (the `?` failure path is modelled
by the `Option` bind). -/
def split (c : Cuboid) : Option (List Cuboid) :=
  if c.x0 = c.x1 ∨ c.y0 = c.y1 ∨ c.z0 = c.z1 then none
  else
    let xlen := c.x1 - c.x0
    let ylen := c.y1 - c.y0
    let zlen := c.z1 - c.z0
    -- segment lengths: [len / 2, len / 2 + 1]
    do
      let c0 ← Cuboid.new c.x0 (c.x0 + xlen / 2) c.y0 (c.y0 + ylen / 2) c.z0 (c.z0 + zlen / 2)
      let c1 ← Cuboid.new (c.x0 + (xlen / 2 + 1)) c.x1 c.y0 (c.y0 + ylen / 2) c.z0 (c.z0 + zlen / 2)
      let c2 ← Cuboid.new c.x0 (c.x0 + xlen / 2) (c.y0 + (ylen / 2 + 1)) c.y1 c.z0 (c.z0 + zlen / 2)
      let c3 ← Cuboid.new (c.x0 + (xlen / 2 + 1)) c.x1 (c.y0 + (ylen / 2 + 1)) c.y1 c.z0 (c.z0 + zlen / 2)
      let c4 ← Cuboid.new c.x0 (c.x0 + xlen / 2) c.y0 (c.y0 + ylen / 2) (c.z0 + (zlen / 2 + 1)) c.z1
      let c5 ← Cuboid.new (c.x0 + (xlen / 2 + 1)) c.x1 c.y0 (c.y0 + ylen / 2) (c.z0 + (zlen / 2 + 1)) c.z1
      let c6 ← Cuboid.new c.x0 (c.x0 + xlen / 2) (c.y0 + (ylen / 2 + 1)) c.y1 (c.z0 + (zlen / 2 + 1)) c.z1
      let c7 ← Cuboid.new (c.x0 + (xlen / 2 + 1)) c.x1 (c.y0 + (ylen / 2 + 1)) c.y1 (c.z0 + (zlen / 2 + 1)) c.z1
      return [c0, c1, c2, c3, c4, c5, c6, c7]

/-- The set of unit cells (voxels) covered by a cuboid.  This is the
abstraction both the brute-force oracle `PolyHashCuboid` and all the
disjointness/volume arguments are phrased in. -/
def cells (c : Cuboid) : Finset (Int × Int × Int) :=
  (Finset.Icc c.x0 c.x1) ×ˢ ((Finset.Icc c.y0 c.y1) ×ˢ (Finset.Icc c.z0 c.z1))

end Cuboid

/-- Two cuboids cover disjoint sets of cells. -/
def cdisj (a b : Cuboid) : Prop := ∀ q, q ∈ a.cells → q ∈ b.cells → False

/-- Union of the cell sets of a list of cuboids. -/
def cellsOfList (l : List Cuboid) : Finset (Int × Int × Int) :=
  l.foldr (fun c acc => c.cells ∪ acc) ∅

/-- Total number of cells of a list of cuboids counted with multiplicity. -/
def totalCells (l : List Cuboid) : Nat :=
  (l.map (fun c => c.cells.card)).sum

section BasicLemmas

open Cuboid

theorem mem_cells {c : Cuboid} {q : Int × Int × Int} :
    q ∈ c.cells ↔ (c.x0 ≤ q.1 ∧ q.1 ≤ c.x1) ∧ (c.y0 ≤ q.2.1 ∧ q.2.1 ≤ c.y1) ∧
      (c.z0 ≤ q.2.2 ∧ q.2.2 ≤ c.z1) := by
  simp [cells, Finset.mem_product, Finset.mem_Icc]

theorem valid_iff {c : Cuboid} : c.valid ↔ c.x0 ≤ c.x1 ∧ c.y0 ≤ c.y1 ∧ c.z0 ≤ c.z1 :=
  Iff.rfl

theorem cells_nonempty {c : Cuboid} (h : c.valid) : ∃ q, q ∈ c.cells :=
  ⟨(c.x0, c.y0, c.z0), by rcases h with ⟨h1, h2, h3⟩; simp [mem_cells]; omega⟩

theorem card_cells_pos {c : Cuboid} (h : c.valid) : 0 < c.cells.card := by
  obtain ⟨q, hq⟩ := cells_nonempty h
  exact Finset.card_pos.mpr ⟨q, hq⟩

theorem volume_eq_card {c : Cuboid} (h : c.valid) : c.volume = (c.cells.card : Int) := by
  rcases h with ⟨h1, h2, h3⟩
  have hx : ((c.x1 + 1 - c.x0).toNat : Int) = c.x1 + 1 - c.x0 := Int.toNat_of_nonneg (by omega)
  have hy : ((c.y1 + 1 - c.y0).toNat : Int) = c.y1 + 1 - c.y0 := Int.toNat_of_nonneg (by omega)
  have hz : ((c.z1 + 1 - c.z0).toNat : Int) = c.z1 + 1 - c.z0 := Int.toNat_of_nonneg (by omega)
  unfold Cuboid.volume Cuboid.cells
  rw [Finset.card_product, Finset.card_product, Int.card_Icc, Int.card_Icc, Int.card_Icc]
  push_cast [hx, hy, hz]
  ring

theorem contains_iff {s o : Cuboid} :
    s.contains o = true ↔ (s.x0 ≤ o.x0 ∧ s.x1 ≥ o.x1 ∧ s.y0 ≤ o.y0 ∧ s.y1 ≥ o.y1 ∧
      s.z0 ≤ o.z0 ∧ s.z1 ≥ o.z1) := by
  simp [Cuboid.contains]

theorem cells_subset_of_contains {s o : Cuboid} (h : s.contains o = true) :
    o.cells ⊆ s.cells := by
  rw [contains_iff] at h
  intro q hq
  rw [mem_cells] at hq ⊢
  omega

theorem intersects_true_iff {s o : Cuboid} :
    s.intersects o = true ↔
      ¬ (if s.x0 ≤ o.x0 then s.x1 < o.x0 else o.x1 < s.x0) ∧
      ¬ (if s.y0 ≤ o.y0 then s.y1 < o.y0 else o.y1 < s.y0) ∧
      ¬ (if s.z0 ≤ o.z0 then s.z1 < o.z0 else o.z1 < s.z0) := by
  unfold Cuboid.intersects
  split_ifs with h1 h2 h3 <;> simp_all

theorem intersects_iff_nonempty {s o : Cuboid} (hs : s.valid) (ho : o.valid) :
    s.intersects o = true ↔ ∃ q, q ∈ s.cells ∧ q ∈ o.cells := by
  rcases hs with ⟨hs1, hs2, hs3⟩
  rcases ho with ⟨ho1, ho2, ho3⟩
  rw [intersects_true_iff]
  constructor
  · rintro ⟨h1, h2, h3⟩
    refine ⟨(max s.x0 o.x0, max s.y0 o.y0, max s.z0 o.z0), ?_, ?_⟩ <;>
      · rw [mem_cells]
        dsimp only
        split_ifs at h1 h2 h3 <;> omega
  · rintro ⟨q, hq1, hq2⟩
    rw [mem_cells] at hq1 hq2
    refine ⟨?_, ?_, ?_⟩ <;> (split_ifs <;> omega)

theorem intersects_eq_false_of_cdisj {s o : Cuboid} (hs : s.valid) (ho : o.valid)
    (h : cdisj s o) : s.intersects o = false := by
  rw [← Bool.not_eq_true, intersects_iff_nonempty hs ho]
  rintro ⟨q, h1, h2⟩
  exact h q h1 h2

theorem cdisj_of_intersects_eq_false {s o : Cuboid} (h : s.intersects o = false) :
    cdisj s o := by
  intro q h1 h2
  rw [mem_cells] at h1 h2
  rw [← Bool.not_eq_true, intersects_true_iff] at h
  apply h
  refine ⟨?_, ?_, ?_⟩ <;> split_ifs <;> omega

theorem contains_eq_false_of_cdisj {s o : Cuboid} (ho : o.valid) (h : cdisj s o) :
    s.contains o = false := by
  rw [← Bool.not_eq_true, contains_iff]
  intro hc
  obtain ⟨q, hq⟩ := cells_nonempty ho
  apply h q _ hq
  rw [mem_cells] at hq ⊢
  omega

theorem cdisj_symmetric : ∀ {a b : Cuboid}, cdisj a b → cdisj b a :=
  fun h q h1 h2 => h q h2 h1

theorem intersection_eq_none_iff {s o : Cuboid} :
    s.intersection o = none ↔ s.intersects o = false := by
  unfold Cuboid.intersection Cuboid.intersects
  split_ifs <;> simp

/-- Cell-set semantics of `intersection`, valid for all inputs: a `none`
result means an empty cell intersection, a `some` result covers exactly
the common cells. -/
def optCells : Option Cuboid → Finset (Int × Int × Int)
  | none => ∅
  | some c => c.cells

theorem cells_intersection (s o : Cuboid) :
    optCells (s.intersection o) = s.cells ∩ o.cells := by
  unfold Cuboid.intersection
  split_ifs <;> ext q <;>
    simp only [optCells, Finset.not_mem_empty, false_iff, Finset.mem_inter, mem_cells] <;>
    omega

theorem cells_intersection_some {s o i : Cuboid} (h : s.intersection o = some i) :
    i.cells = s.cells ∩ o.cells := by
  have := cells_intersection s o
  rw [h] at this
  exact this

theorem intersection_eq_some {s o i : Cuboid} (h : s.intersection o = some i) :
    i = ⟨max s.x0 o.x0, min s.x1 o.x1, max s.y0 o.y0, min s.y1 o.y1,
         max s.z0 o.z0, min s.z1 o.z1⟩ ∧ s.intersects o = true := by
  unfold Cuboid.intersection at h
  unfold Cuboid.intersects
  split_ifs at h ⊢ <;> simp_all

theorem intersection_valid {s o i : Cuboid} (hs : s.valid) (ho : o.valid)
    (h : s.intersection o = some i) : i.valid := by
  obtain ⟨hi, hint⟩ := intersection_eq_some h
  rw [intersects_true_iff] at hint
  obtain ⟨h1, h2, h3⟩ := hint
  rcases hs with ⟨hs1, hs2, hs3⟩
  rcases ho with ⟨ho1, ho2, ho3⟩
  subst hi
  refine ⟨show max s.x0 o.x0 ≤ min s.x1 o.x1 from ?_,
          show max s.y0 o.y0 ≤ min s.y1 o.y1 from ?_,
          show max s.z0 o.z0 ≤ min s.z1 o.z1 from ?_⟩ <;>
    (split_ifs at h1 h2 h3 <;> omega)

theorem intersection_contains_left {s o i : Cuboid} (h : s.intersection o = some i) :
    s.contains i = true := by
  obtain ⟨hi, _⟩ := intersection_eq_some h
  subst hi
  rw [contains_iff]
  refine ⟨?_, ?_, ?_, ?_, ?_, ?_⟩ <;> simp

end BasicLemmas

section CellListLemmas

theorem mem_cellsOfList {l : List Cuboid} {q : Int × Int × Int} :
    q ∈ cellsOfList l ↔ ∃ c ∈ l, q ∈ c.cells := by
  induction l with
  | nil => simp [cellsOfList]
  | cons c rest ih =>
      simp only [cellsOfList, List.foldr_cons, Finset.mem_union, List.mem_cons]
      rw [show (List.foldr (fun c acc => c.cells ∪ acc) ∅ rest) = cellsOfList rest from rfl]
      rw [ih]
      constructor
      · rintro (h | ⟨c', hc', hq⟩)
        · exact ⟨c, Or.inl rfl, h⟩
        · exact ⟨c', Or.inr hc', hq⟩
      · rintro ⟨c', (rfl | hc'), hq⟩
        · exact Or.inl hq
        · exact Or.inr ⟨c', hc', hq⟩

theorem cellsOfList_cons (c : Cuboid) (l : List Cuboid) :
    cellsOfList (c :: l) = c.cells ∪ cellsOfList l := rfl

theorem cellsOfList_append (l₁ l₂ : List Cuboid) :
    cellsOfList (l₁ ++ l₂) = cellsOfList l₁ ∪ cellsOfList l₂ := by
  ext q
  simp only [mem_cellsOfList, Finset.mem_union, List.mem_append]
  constructor
  · rintro ⟨c, (h | h), hq⟩
    · exact Or.inl ⟨c, h, hq⟩
    · exact Or.inr ⟨c, h, hq⟩
  · rintro (⟨c, h, hq⟩ | ⟨c, h, hq⟩)
    · exact ⟨c, Or.inl h, hq⟩
    · exact ⟨c, Or.inr h, hq⟩

theorem cellsOfList_perm {l₁ l₂ : List Cuboid} (h : l₁.Perm l₂) :
    cellsOfList l₁ = cellsOfList l₂ := by
  ext q
  simp only [mem_cellsOfList]
  constructor <;> rintro ⟨c, hc, hq⟩
  · exact ⟨c, h.mem_iff.mp hc, hq⟩
  · exact ⟨c, h.mem_iff.mpr hc, hq⟩

theorem totalCells_perm {l₁ l₂ : List Cuboid} (h : l₁.Perm l₂) :
    totalCells l₁ = totalCells l₂ :=
  List.Perm.sum_eq (h.map _)

theorem totalCells_append (l₁ l₂ : List Cuboid) :
    totalCells (l₁ ++ l₂) = totalCells l₁ + totalCells l₂ := by
  unfold totalCells
  rw [List.map_append, List.sum_append]

theorem totalCells_cons (c : Cuboid) (l : List Cuboid) :
    totalCells (c :: l) = c.cells.card + totalCells l := by
  unfold totalCells
  rw [List.map_cons, List.sum_cons]

theorem disjoint_cells_cellsOfList {c : Cuboid} {l : List Cuboid}
    (h : ∀ b ∈ l, cdisj c b) : Disjoint c.cells (cellsOfList l) := by
  rw [Finset.disjoint_left]
  intro q hq hq'
  rw [mem_cellsOfList] at hq'
  obtain ⟨b, hb, hqb⟩ := hq'
  exact h b hb q hq hqb

theorem totalCells_eq_card {l : List Cuboid} (h : List.Pairwise cdisj l) :
    totalCells l = (cellsOfList l).card := by
  induction l with
  | nil => simp [totalCells, cellsOfList]
  | cons c rest ih =>
      rw [List.pairwise_cons] at h
      rw [totalCells_cons, cellsOfList_cons,
          Finset.card_union_of_disjoint (disjoint_cells_cellsOfList h.1), ih h.2]

theorem foldl_add_volume (l : List Cuboid) (a : Int) :
    l.foldl (fun acc c => acc + c.volume) a = a + (l.map Cuboid.volume).sum := by
  induction l generalizing a with
  | nil => simp
  | cons c rest ih => simp [ih]; ring

theorem sum_volumes_eq_totalCells {l : List Cuboid} (h : ∀ c ∈ l, c.valid) :
    (l.map Cuboid.volume).sum = (totalCells l : Int) := by
  induction l with
  | nil => simp [totalCells]
  | cons c rest ih =>
      rw [List.map_cons, List.sum_cons, totalCells_cons,
          volume_eq_card (h c (List.mem_cons_self c rest)),
          ih (fun b hb => h b (List.mem_cons_of_mem c hb))]
      push_cast
      ring

end CellListLemmas

/-! ### The 26-direction decomposition of `extensions`

Each candidate of `candList` picks, per axis, one of three segments
relative to the inner box `s` inside the outer box `o`: "below" is
`o.lo .. s.lo - 1`, "equal" is `s.lo .. s.hi`, "above" is `s.hi + 1 .. o.hi`.
The 26 candidates are exactly the 27 selector triples minus the all-equal
one.  All structural facts about `extensions` are proved through this
classification. -/

inductive Sel where
  | below | equal | above
deriving DecidableEq, Repr

def selLo : Sel → Int → Int → Int → Int
  | .below, _, _, olo => olo
  | .equal, slo, _, _ => slo
  | .above, _, shi, _ => shi + 1

def selHi : Sel → Int → Int → Int → Int
  | .below, slo, _, _ => slo - 1
  | .equal, _, shi, _ => shi
  | .above, _, _, ohi => ohi

def mkCand (s o : Cuboid) (t : Sel × Sel × Sel) : Cuboid :=
  ⟨selLo t.1 s.x0 s.x1 o.x0, selHi t.1 s.x0 s.x1 o.x1,
   selLo t.2.1 s.y0 s.y1 o.y0, selHi t.2.1 s.y0 s.y1 o.y1,
   selLo t.2.2 s.z0 s.z1 o.z0, selHi t.2.2 s.z0 s.z1 o.z1⟩

/-- The selector triples of the 26 candidates, in source order. -/
def tagList : List (Sel × Sel × Sel) :=
  [ (.above, .equal, .equal), (.equal, .above, .equal),
    (.below, .equal, .equal), (.equal, .below, .equal),
    (.equal, .equal, .above), (.equal, .equal, .below),
    (.above, .equal, .above), (.equal, .above, .above),
    (.below, .equal, .above), (.equal, .below, .above),
    (.above, .equal, .below), (.equal, .above, .below),
    (.below, .equal, .below), (.equal, .below, .below),
    (.above, .above, .above), (.below, .above, .above),
    (.below, .below, .above), (.above, .below, .above),
    (.above, .above, .equal), (.below, .above, .equal),
    (.below, .below, .equal), (.above, .below, .equal),
    (.above, .above, .below), (.below, .above, .below),
    (.below, .below, .below), (.above, .below, .below) ]

theorem candList_eq_map (s o : Cuboid) :
    Cuboid.candList s o = tagList.map (mkCand s o) := rfl

theorem keep_iff {o c : Cuboid} :
    Cuboid.keep o c = true ↔
      ¬ (c.x0 > o.x1 ∨ c.x1 < o.x0 ∨ c.y0 > o.y1 ∨ c.y1 < o.y0 ∨
         c.z0 > o.z1 ∨ c.z1 < o.z0) := by
  simp [Cuboid.keep]

theorem mem_mkCand {s o : Cuboid} {t : Sel × Sel × Sel} {q : Int × Int × Int} :
    q ∈ (mkCand s o t).cells ↔
      (selLo t.1 s.x0 s.x1 o.x0 ≤ q.1 ∧ q.1 ≤ selHi t.1 s.x0 s.x1 o.x1) ∧
      (selLo t.2.1 s.y0 s.y1 o.y0 ≤ q.2.1 ∧ q.2.1 ≤ selHi t.2.1 s.y0 s.y1 o.y1) ∧
      (selLo t.2.2 s.z0 s.z1 o.z0 ≤ q.2.2 ∧ q.2.2 ≤ selHi t.2.2 s.z0 s.z1 o.z1) := by
  simp only [mem_cells, mkCand]

theorem selRange_disj {t t' : Sel} {slo shi olo ohi x : Int} (hv : slo ≤ shi)
    (hne : t ≠ t')
    (h1 : selLo t slo shi olo ≤ x) (h2 : x ≤ selHi t slo shi ohi)
    (h1' : selLo t' slo shi olo ≤ x) (h2' : x ≤ selHi t' slo shi ohi) : False := by
  cases t <;> cases t' <;>
    first
      | exact hne rfl
      | (simp only [selLo, selHi] at h1 h2 h1' h2'; omega)

theorem mkCand_cdisj {s o : Cuboid} (hs : s.valid) {t t' : Sel × Sel × Sel}
    (hne : t ≠ t') : cdisj (mkCand s o t) (mkCand s o t') := by
  obtain ⟨hsx, hsy, hsz⟩ := hs
  intro q hq hq'
  rw [mem_mkCand] at hq hq'
  obtain ⟨hx, hy, hz⟩ := hq
  obtain ⟨hx', hy', hz'⟩ := hq'
  rcases t with ⟨tx, ty, tz⟩
  rcases t' with ⟨tx', ty', tz'⟩
  by_cases ex : tx = tx'
  · by_cases ey : ty = ty'
    · have ez : tz ≠ tz' := fun ez => hne (by rw [ex, ey, ez])
      exact selRange_disj hsz ez hz.1 hz.2 hz'.1 hz'.2
    · exact selRange_disj hsy ey hy.1 hy.2 hy'.1 hy'.2
  · exact selRange_disj hsx ex hx.1 hx.2 hx'.1 hx'.2

theorem selAxis_valid {t : Sel} {slo shi olo ohi : Int} (hv : slo ≤ shi)
    (hk1 : ¬ selLo t slo shi olo > ohi) (hk2 : ¬ selHi t slo shi ohi < olo) :
    selLo t slo shi olo ≤ selHi t slo shi ohi := by
  cases t <;> simp only [selLo, selHi] at * <;> omega

theorem sel_subset_outer {t : Sel} {slo shi olo ohi x : Int} (hv : slo ≤ shi)
    (hl : olo ≤ slo) (hh : shi ≤ ohi)
    (h1 : selLo t slo shi olo ≤ x) (h2 : x ≤ selHi t slo shi ohi) :
    olo ≤ x ∧ x ≤ ohi := by
  cases t <;> simp only [selLo, selHi] at h1 h2 <;> omega

theorem sel_outside_inner {t : Sel} (hne : t ≠ .equal) {slo shi olo ohi x : Int}
    (h1 : selLo t slo shi olo ≤ x) (h2 : x ≤ selHi t slo shi ohi) :
    x < slo ∨ shi < x := by
  cases t with
  | below => simp only [selLo, selHi] at h1 h2; omega
  | equal => exact absurd rfl hne
  | above => simp only [selLo, selHi] at h1 h2; omega

theorem tagList_not_all_equal :
    ∀ t ∈ tagList, t.1 ≠ Sel.equal ∨ t.2.1 ≠ Sel.equal ∨ t.2.2 ≠ Sel.equal := by
  decide

theorem tagList_pairwise_ne : List.Pairwise (fun a b => a ≠ b) tagList := by
  decide

theorem mem_tagList_of_ne {t : Sel × Sel × Sel}
    (h : t ≠ (Sel.equal, Sel.equal, Sel.equal)) : t ∈ tagList := by
  rcases t with ⟨tx, ty, tz⟩
  cases tx <;> cases ty <;> cases tz <;> first | exact absurd rfl h | decide

theorem mem_extensions {s o e : Cuboid} :
    e ∈ s.extensions o ↔
      ∃ t ∈ tagList, e = mkCand s o t ∧ Cuboid.keep o e = true := by
  unfold Cuboid.extensions
  rw [candList_eq_map, List.mem_filter]
  constructor
  · rintro ⟨hmem, hkeep⟩
    obtain ⟨t, ht, rfl⟩ := List.mem_map.mp hmem
    exact ⟨t, ht, rfl, hkeep⟩
  · rintro ⟨t, ht, rfl, hkeep⟩
    exact ⟨List.mem_map.mpr ⟨t, ht, rfl⟩, hkeep⟩

theorem extensions_valid {s o : Cuboid} (hs : s.valid) :
    ∀ e ∈ s.extensions o, e.valid := by
  intro e he
  obtain ⟨t, _ht, rfl, hkeep⟩ := mem_extensions.mp he
  rw [keep_iff] at hkeep
  push_neg at hkeep
  simp only [mkCand] at hkeep
  obtain ⟨hsx, hsy, hsz⟩ := hs
  obtain ⟨k1, k2, k3, k4, k5, k6⟩ := hkeep
  exact ⟨selAxis_valid hsx (by omega) (by omega),
         selAxis_valid hsy (by omega) (by omega),
         selAxis_valid hsz (by omega) (by omega)⟩

theorem extensions_pairwise {s o : Cuboid} (hs : s.valid) :
    List.Pairwise cdisj (s.extensions o) := by
  unfold Cuboid.extensions
  rw [candList_eq_map]
  apply List.Pairwise.filter
  rw [List.pairwise_map]
  exact tagList_pairwise_ne.imp (fun hne => mkCand_cdisj hs hne)

theorem extensions_not_intersect_inner {s o : Cuboid} (hs : s.valid) :
    ∀ e ∈ s.extensions o, cdisj e s := by
  intro e he q hqe hqs
  obtain ⟨t, ht, rfl, _⟩ := mem_extensions.mp he
  rw [mem_mkCand] at hqe
  rw [mem_cells] at hqs
  obtain ⟨hx, hy, hz⟩ := hqe
  rcases tagList_not_all_equal t ht with h | h | h
  · rcases sel_outside_inner h hx.1 hx.2 with h' | h' <;> omega
  · rcases sel_outside_inner h hy.1 hy.2 with h' | h' <;> omega
  · rcases sel_outside_inner h hz.1 hz.2 with h' | h' <;> omega

theorem extensions_cells_subset {s o : Cuboid} (hs : s.valid)
    (hc : o.contains s = true) :
    ∀ e ∈ s.extensions o, e.cells ⊆ o.cells \ s.cells := by
  intro e he q hq
  have hdisj := extensions_not_intersect_inner hs e he
  obtain ⟨t, ht, rfl, _⟩ := mem_extensions.mp he
  rw [mem_mkCand] at hq
  obtain ⟨hx, hy, hz⟩ := hq
  rw [contains_iff] at hc
  obtain ⟨hc1, hc2, hc3, hc4, hc5, hc6⟩ := hc
  obtain ⟨hsx, hsy, hsz⟩ := hs
  rw [Finset.mem_sdiff]
  constructor
  · rw [mem_cells]
    exact ⟨sel_subset_outer hsx hc1 (by omega) hx.1 hx.2,
           sel_subset_outer hsy hc3 (by omega) hy.1 hy.2,
           sel_subset_outer hsz hc5 (by omega) hz.1 hz.2⟩
  · intro hqs
    exact hdisj q (mem_mkCand.mpr ⟨hx, hy, hz⟩) hqs

def classifySel (lo hi x : Int) : Sel :=
  if x < lo then .below else if x ≤ hi then .equal else .above

theorem classify_mem (lo hi olo ohi x : Int) (h1 : olo ≤ x) (h2 : x ≤ ohi) :
    selLo (classifySel lo hi x) lo hi olo ≤ x ∧
      x ≤ selHi (classifySel lo hi x) lo hi ohi := by
  unfold classifySel
  split_ifs <;> simp only [selLo, selHi] <;> omega

theorem classify_eq_equal_iff {lo hi x : Int} :
    classifySel lo hi x = Sel.equal ↔ lo ≤ x ∧ x ≤ hi := by
  unfold classifySel
  split_ifs <;> simp <;> omega

theorem extensions_cells_cover {s o : Cuboid} {q : Int × Int × Int}
    (hqo : q ∈ o.cells) (hqs : q ∉ s.cells) :
    ∃ e ∈ s.extensions o, q ∈ e.cells := by
  rw [mem_cells] at hqo hqs
  obtain ⟨ho1, ho2, ho3⟩ := hqo
  have hx := classify_mem s.x0 s.x1 o.x0 o.x1 q.1 ho1.1 ho1.2
  have hy := classify_mem s.y0 s.y1 o.y0 o.y1 q.2.1 ho2.1 ho2.2
  have hz := classify_mem s.z0 s.z1 o.z0 o.z1 q.2.2 ho3.1 ho3.2
  have hne : (classifySel s.x0 s.x1 q.1, classifySel s.y0 s.y1 q.2.1,
      classifySel s.z0 s.z1 q.2.2) ≠ (Sel.equal, Sel.equal, Sel.equal) := by
    intro h
    rw [Prod.mk.injEq, Prod.mk.injEq] at h
    obtain ⟨e1, e2, e3⟩ := h
    exact hqs ⟨classify_eq_equal_iff.mp e1, classify_eq_equal_iff.mp e2,
               classify_eq_equal_iff.mp e3⟩
  refine ⟨mkCand s o (classifySel s.x0 s.x1 q.1, classifySel s.y0 s.y1 q.2.1,
      classifySel s.z0 s.z1 q.2.2), ?_, ?_⟩
  · refine mem_extensions.mpr ⟨_, mem_tagList_of_ne hne, rfl, ?_⟩
    rw [keep_iff]
    simp only [mkCand]
    omega
  · exact mem_mkCand.mpr ⟨hx, hy, hz⟩

theorem extensions_cells {s o : Cuboid} (hs : s.valid) (hc : o.contains s = true) :
    cellsOfList (s.extensions o) = o.cells \ s.cells := by
  ext q
  constructor
  · intro hq
    obtain ⟨e, he, hqe⟩ := mem_cellsOfList.mp hq
    exact extensions_cells_subset hs hc e he hqe
  · intro hq
    rw [Finset.mem_sdiff] at hq
    obtain ⟨e, he, hqe⟩ := extensions_cells_cover hq.1 hq.2
    exact mem_cellsOfList.mpr ⟨e, he, hqe⟩

theorem extensions_length_le (s o : Cuboid) : (s.extensions o).length ≤ 26 :=
  List.length_filter_le (Cuboid.keep o) (Cuboid.candList s o)

section DifferenceLemmas

open Cuboid

theorem contains_self (c : Cuboid) : c.contains c = true := by
  rw [contains_iff]
  omega

theorem intersects_of_contains {a b : Cuboid} (ha : a.valid)
    (hc : b.contains a = true) : a.intersects b = true := by
  rw [contains_iff] at hc
  rw [intersects_true_iff]
  obtain ⟨hsx, hsy, hsz⟩ := ha
  refine ⟨?_, ?_, ?_⟩ <;> (split_ifs <;> omega)

theorem difference_cells {a b : Cuboid} (ha : a.valid) (hb : b.valid) :
    cellsOfList (a.difference b) = a.cells \ b.cells := by
  unfold Cuboid.difference
  split_ifs with hcont
  · rw [show cellsOfList [] = ∅ from rfl]
    symm
    rw [Finset.sdiff_eq_empty_iff_subset]
    exact cells_subset_of_contains hcont
  · cases h : a.intersection b with
    | none =>
        have hdisj : a.cells ∩ b.cells = ∅ := by
          have := cells_intersection a b
          rw [h] at this
          exact this.symm
        rw [show cellsOfList [a] = a.cells ∪ ∅ from rfl, Finset.union_empty]
        symm
        rw [Finset.sdiff_eq_self_iff_disjoint, Finset.disjoint_iff_inter_eq_empty]
        exact hdisj
    | some i =>
        have hi : i.valid := intersection_valid ha hb h
        have hci : a.contains i = true := intersection_contains_left h
        have hicells : i.cells = a.cells ∩ b.cells := cells_intersection_some h
        ext q
        rw [mem_cellsOfList, Finset.mem_sdiff]
        constructor
        · rintro ⟨p, hp, hqp⟩
          obtain ⟨e, he, hpe⟩ := List.mem_filterMap.mp hp
          have hpc := cells_intersection_some hpe
          rw [hpc, Finset.mem_inter] at hqp
          have hqe := extensions_cells_subset hi hci e he hqp.2
          rw [Finset.mem_sdiff, hicells, Finset.mem_inter] at hqe
          exact ⟨hqp.1, fun hqb => hqe.2 ⟨hqp.1, hqb⟩⟩
        · rintro ⟨hqa, hqb⟩
          have hqi : q ∉ i.cells := by
            rw [hicells, Finset.mem_inter]
            exact fun hq => hqb hq.2
          obtain ⟨e, he, hqe⟩ := extensions_cells_cover hqa hqi
          cases h2 : a.intersection e with
          | none =>
              exfalso
              have := cells_intersection a e
              rw [h2] at this
              have : q ∈ (∅ : Finset (Int × Int × Int)) := by
                rw [show optCells none = (∅ : Finset (Int × Int × Int)) from rfl] at this
                rw [this, Finset.mem_inter]
                exact ⟨hqa, hqe⟩
              simp at this
          | some p =>
              refine ⟨p, List.mem_filterMap.mpr ⟨e, he, h2⟩, ?_⟩
              rw [cells_intersection_some h2, Finset.mem_inter]
              exact ⟨hqa, hqe⟩

theorem difference_valid {a b : Cuboid} (ha : a.valid) (hb : b.valid) :
    ∀ p ∈ a.difference b, p.valid := by
  unfold Cuboid.difference
  split_ifs with hcont
  · simp
  · cases h : a.intersection b with
    | none =>
        intro p hp
        simp only [List.mem_singleton] at hp
        exact hp ▸ ha
    | some i =>
        intro p hp
        obtain ⟨e, he, hpe⟩ := List.mem_filterMap.mp hp
        have hi : i.valid := intersection_valid ha hb h
        exact intersection_valid ha (extensions_valid hi e he) hpe

theorem difference_pairwise {a b : Cuboid} (ha : a.valid) (hb : b.valid) :
    List.Pairwise cdisj (a.difference b) := by
  unfold Cuboid.difference
  split_ifs with hcont
  · simp
  · cases h : a.intersection b with
    | none => simp
    | some i =>
        rw [List.pairwise_filterMap]
        have hi : i.valid := intersection_valid ha hb h
        apply (extensions_pairwise hi).imp
        intro e e' hde p hp p' hp' q hqp hqp'
        rw [Option.mem_def] at hp hp'
        rw [cells_intersection_some hp, Finset.mem_inter] at hqp
        rw [cells_intersection_some hp', Finset.mem_inter] at hqp'
        exact hde q hqp.2 hqp'.2

theorem difference_contains {a b : Cuboid} :
    ∀ p ∈ a.difference b, a.contains p = true := by
  unfold Cuboid.difference
  split_ifs
  · simp
  · cases h : a.intersection b with
    | none =>
        intro p hp
        simp only [List.mem_singleton] at hp
        exact hp ▸ contains_self a
    | some i =>
        intro p hp
        obtain ⟨e, _, hpe⟩ := List.mem_filterMap.mp hp
        exact intersection_contains_left hpe

theorem difference_cells_subset {a b : Cuboid} (ha : a.valid) (hb : b.valid) :
    ∀ p ∈ a.difference b, p.cells ⊆ a.cells := by
  intro p hp q hq
  have h := difference_cells ha hb
  have hq' : q ∈ cellsOfList (a.difference b) := mem_cellsOfList.mpr ⟨p, hp, hq⟩
  rw [h, Finset.mem_sdiff] at hq'
  exact hq'.1

theorem difference_of_contains {a b : Cuboid} (h : b.contains a = true) :
    a.difference b = [] := by
  unfold Cuboid.difference
  rw [if_pos h]

theorem difference_of_not_intersects {a b : Cuboid} (ha : a.valid)
    (h : a.intersects b = false) : a.difference b = [a] := by
  have hcont : ¬ (b.contains a = true) := by
    intro hc
    rw [intersects_of_contains ha hc] at h
    exact Bool.noConfusion h
  have hnone : a.intersection b = none := intersection_eq_none_iff.mpr h
  unfold Cuboid.difference
  rw [if_neg hcont, hnone]

theorem sum_volumes_eq_card {l : List Cuboid} (hval : ∀ c ∈ l, c.valid)
    (hpw : List.Pairwise cdisj l) :
    (l.map Cuboid.volume).sum = ((cellsOfList l).card : Int) := by
  rw [sum_volumes_eq_totalCells hval, totalCells_eq_card hpw]

end DifferenceLemmas

section SplitLemmas

open Cuboid

theorem new_eq_some {x0 x1 y0 y1 z0 z1 : Int} (h1 : x0 ≤ x1) (h2 : y0 ≤ y1)
    (h3 : z0 ≤ z1) :
    Cuboid.new x0 x1 y0 y1 z0 z1 = some ⟨x0, x1, y0, y1, z0, z1⟩ := by
  unfold Cuboid.new
  rw [if_neg (by omega)]

theorem split_eq {c : Cuboid} (hx : c.x0 < c.x1) (hy : c.y0 < c.y1) (hz : c.z0 < c.z1) :
    c.split = some
      [⟨c.x0, c.x0 + (c.x1 - c.x0) / 2, c.y0, c.y0 + (c.y1 - c.y0) / 2,
        c.z0, c.z0 + (c.z1 - c.z0) / 2⟩,
       ⟨c.x0 + ((c.x1 - c.x0) / 2 + 1), c.x1, c.y0, c.y0 + (c.y1 - c.y0) / 2,
        c.z0, c.z0 + (c.z1 - c.z0) / 2⟩,
       ⟨c.x0, c.x0 + (c.x1 - c.x0) / 2, c.y0 + ((c.y1 - c.y0) / 2 + 1), c.y1,
        c.z0, c.z0 + (c.z1 - c.z0) / 2⟩,
       ⟨c.x0 + ((c.x1 - c.x0) / 2 + 1), c.x1, c.y0 + ((c.y1 - c.y0) / 2 + 1), c.y1,
        c.z0, c.z0 + (c.z1 - c.z0) / 2⟩,
       ⟨c.x0, c.x0 + (c.x1 - c.x0) / 2, c.y0, c.y0 + (c.y1 - c.y0) / 2,
        c.z0 + ((c.z1 - c.z0) / 2 + 1), c.z1⟩,
       ⟨c.x0 + ((c.x1 - c.x0) / 2 + 1), c.x1, c.y0, c.y0 + (c.y1 - c.y0) / 2,
        c.z0 + ((c.z1 - c.z0) / 2 + 1), c.z1⟩,
       ⟨c.x0, c.x0 + (c.x1 - c.x0) / 2, c.y0 + ((c.y1 - c.y0) / 2 + 1), c.y1,
        c.z0 + ((c.z1 - c.z0) / 2 + 1), c.z1⟩,
       ⟨c.x0 + ((c.x1 - c.x0) / 2 + 1), c.x1, c.y0 + ((c.y1 - c.y0) / 2 + 1), c.y1,
        c.z0 + ((c.z1 - c.z0) / 2 + 1), c.z1⟩] := by
  have e0 : Cuboid.new c.x0 (c.x0 + (c.x1 - c.x0) / 2) c.y0 (c.y0 + (c.y1 - c.y0) / 2)
      c.z0 (c.z0 + (c.z1 - c.z0) / 2) = some _ :=
    new_eq_some (by omega) (by omega) (by omega)
  have e1 : Cuboid.new (c.x0 + ((c.x1 - c.x0) / 2 + 1)) c.x1 c.y0 (c.y0 + (c.y1 - c.y0) / 2)
      c.z0 (c.z0 + (c.z1 - c.z0) / 2) = some _ :=
    new_eq_some (by omega) (by omega) (by omega)
  have e2 : Cuboid.new c.x0 (c.x0 + (c.x1 - c.x0) / 2) (c.y0 + ((c.y1 - c.y0) / 2 + 1)) c.y1
      c.z0 (c.z0 + (c.z1 - c.z0) / 2) = some _ :=
    new_eq_some (by omega) (by omega) (by omega)
  have e3 : Cuboid.new (c.x0 + ((c.x1 - c.x0) / 2 + 1)) c.x1 (c.y0 + ((c.y1 - c.y0) / 2 + 1)) c.y1
      c.z0 (c.z0 + (c.z1 - c.z0) / 2) = some _ :=
    new_eq_some (by omega) (by omega) (by omega)
  have e4 : Cuboid.new c.x0 (c.x0 + (c.x1 - c.x0) / 2) c.y0 (c.y0 + (c.y1 - c.y0) / 2)
      (c.z0 + ((c.z1 - c.z0) / 2 + 1)) c.z1 = some _ :=
    new_eq_some (by omega) (by omega) (by omega)
  have e5 : Cuboid.new (c.x0 + ((c.x1 - c.x0) / 2 + 1)) c.x1 c.y0 (c.y0 + (c.y1 - c.y0) / 2)
      (c.z0 + ((c.z1 - c.z0) / 2 + 1)) c.z1 = some _ :=
    new_eq_some (by omega) (by omega) (by omega)
  have e6 : Cuboid.new c.x0 (c.x0 + (c.x1 - c.x0) / 2) (c.y0 + ((c.y1 - c.y0) / 2 + 1)) c.y1
      (c.z0 + ((c.z1 - c.z0) / 2 + 1)) c.z1 = some _ :=
    new_eq_some (by omega) (by omega) (by omega)
  have e7 : Cuboid.new (c.x0 + ((c.x1 - c.x0) / 2 + 1)) c.x1 (c.y0 + ((c.y1 - c.y0) / 2 + 1)) c.y1
      (c.z0 + ((c.z1 - c.z0) / 2 + 1)) c.z1 = some _ :=
    new_eq_some (by omega) (by omega) (by omega)
  unfold Cuboid.split
  rw [if_neg (by omega)]
  simp only [Option.bind_eq_bind, Option.pure_def, e0, e1, e2, e3, e4, e5, e6, e7,
    Option.some_bind]

theorem split_eq_none_iff {c : Cuboid} (hc : c.valid) :
    c.split = none ↔ (c.x0 = c.x1 ∨ c.y0 = c.y1 ∨ c.z0 = c.z1) := by
  obtain ⟨hv1, hv2, hv3⟩ := hc
  constructor
  · intro h
    by_contra hne
    push_neg at hne
    obtain ⟨h1, h2, h3⟩ := hne
    rw [split_eq (by omega) (by omega) (by omega)] at h
    exact Option.noConfusion h
  · intro h
    unfold Cuboid.split
    rw [if_pos h]

end SplitLemmas

theorem split_spec {c : Cuboid} (hx : c.x0 < c.x1) (hy : c.y0 < c.y1) (hz : c.z0 < c.z1) :
    ∃ l, c.split = some l ∧ l.length = 8 ∧ (∀ p ∈ l, p.valid) ∧
      List.Pairwise cdisj l ∧ cellsOfList l = c.cells ∧
      (l.map Cuboid.volume).sum = c.volume := by
  refine ⟨_, split_eq hx hy hz, rfl, ?_, ?_, ?_, ?_⟩
  case _ =>
    intro p hp
    simp only [List.mem_cons, List.not_mem_nil, or_false] at hp
    rcases hp with rfl | rfl | rfl | rfl | rfl | rfl | rfl | rfl <;>
      (refine ⟨?_, ?_, ?_⟩ <;> (simp only []; omega))
  case _ =>
    rw [List.pairwise_iff_getElem]
    intro i j hi hj hij
    simp only [List.length_cons, List.length_nil] at hi hj
    interval_cases i <;> interval_cases j <;>
      first
        | omega
        | (intro q hq1 hq2;
           simp only [List.getElem_cons_zero, List.getElem_cons_succ, mem_cells] at hq1 hq2;
           omega)
  case _ =>
    ext q
    rw [mem_cellsOfList]
    constructor
    · rintro ⟨p, hp, hqp⟩
      simp only [List.mem_cons, List.not_mem_nil, or_false] at hp
      rw [mem_cells]
      rcases hp with rfl | rfl | rfl | rfl | rfl | rfl | rfl | rfl <;>
        (simp only [mem_cells] at hqp; omega)
    · intro hq
      rw [mem_cells] at hq
      by_cases hqx : q.1 ≤ c.x0 + (c.x1 - c.x0) / 2 <;>
        by_cases hqy : q.2.1 ≤ c.y0 + (c.y1 - c.y0) / 2 <;>
          by_cases hqz : q.2.2 ≤ c.z0 + (c.z1 - c.z0) / 2
      · exact ⟨⟨c.x0, c.x0 + (c.x1 - c.x0) / 2, c.y0, c.y0 + (c.y1 - c.y0) / 2,
          c.z0, c.z0 + (c.z1 - c.z0) / 2⟩, by simp, by simp only [mem_cells]; omega⟩
      · exact ⟨⟨c.x0, c.x0 + (c.x1 - c.x0) / 2, c.y0, c.y0 + (c.y1 - c.y0) / 2,
          c.z0 + ((c.z1 - c.z0) / 2 + 1), c.z1⟩, by simp, by simp only [mem_cells]; omega⟩
      · exact ⟨⟨c.x0, c.x0 + (c.x1 - c.x0) / 2, c.y0 + ((c.y1 - c.y0) / 2 + 1), c.y1,
          c.z0, c.z0 + (c.z1 - c.z0) / 2⟩, by simp, by simp only [mem_cells]; omega⟩
      · exact ⟨⟨c.x0, c.x0 + (c.x1 - c.x0) / 2, c.y0 + ((c.y1 - c.y0) / 2 + 1), c.y1,
          c.z0 + ((c.z1 - c.z0) / 2 + 1), c.z1⟩, by simp, by simp only [mem_cells]; omega⟩
      · exact ⟨⟨c.x0 + ((c.x1 - c.x0) / 2 + 1), c.x1, c.y0, c.y0 + (c.y1 - c.y0) / 2,
          c.z0, c.z0 + (c.z1 - c.z0) / 2⟩, by simp, by simp only [mem_cells]; omega⟩
      · exact ⟨⟨c.x0 + ((c.x1 - c.x0) / 2 + 1), c.x1, c.y0, c.y0 + (c.y1 - c.y0) / 2,
          c.z0 + ((c.z1 - c.z0) / 2 + 1), c.z1⟩, by simp, by simp only [mem_cells]; omega⟩
      · exact ⟨⟨c.x0 + ((c.x1 - c.x0) / 2 + 1), c.x1, c.y0 + ((c.y1 - c.y0) / 2 + 1), c.y1,
          c.z0, c.z0 + (c.z1 - c.z0) / 2⟩, by simp, by simp only [mem_cells]; omega⟩
      · exact ⟨⟨c.x0 + ((c.x1 - c.x0) / 2 + 1), c.x1, c.y0 + ((c.y1 - c.y0) / 2 + 1), c.y1,
          c.z0 + ((c.z1 - c.z0) / 2 + 1), c.z1⟩, by simp, by simp only [mem_cells]; omega⟩
  case _ =>
    simp only [List.map_cons, List.map_nil, List.sum_cons, List.sum_nil, Cuboid.volume]
    generalize (c.x1 - c.x0) / 2 = dx
    generalize (c.y1 - c.y0) / 2 = dy
    generalize (c.z1 - c.z0) / 2 = dz
    ring

/-! ### `PolyCuboid`

The Rust `PolyCuboid` owns a `Vec<Cuboid>`; it is modelled as a
`List Cuboid`.  `Vec::swap_remove(j)` moves the last element into
position `j` and pops the last slot. -/

def swapRemove {α : Type} (l : List α) (j : Nat) : List α :=
  match l.getLast? with
  | none => l
  | some a => (l.set j a).dropLast

/-- The inner `for (j, other) in others.iter().enumerate()` loop of
`PolyCuboid::insert`: find the first worklist piece that the member `c`
fully contains or that intersects `c`. -/
def hitIndex (c : Cuboid) (others : List Cuboid) : Option Nat :=
  others.findIdx? (fun p => c.contains p || p.intersects c)

/-- The body executed when a hit is found at index `j`: if the member
contains the piece, just drop the piece; otherwise replace it by
`piece.difference(member)` (the difference pieces are appended at the
end, as `Vec::append` does). -/
def applyHit (c : Cuboid) (others : List Cuboid) (j : Nat) : List Cuboid :=
  match others[j]? with
  | none => others
  | some p =>
      if c.contains p then swapRemove others j
      else swapRemove others j ++ p.difference c

/-- One pass of the outer `for (i, c) in self.iter().skip(skip_i).enumerate()`
loop: walk the members, acting on the first hit against the current
worklist and recording `skip_i = i` while no overlap has occurred yet.
Returns the new worklist, the new `skip_i` and the `overlap` flag. -/
def insertPassAux : List Cuboid → List Cuboid → Nat → Nat → Bool →
    List Cuboid × Nat × Bool
  | [], others, _, skipI, overlap => (others, skipI, overlap)
  | c :: rest, others, i, skipI, overlap =>
      match hitIndex c others with
      | some j => insertPassAux rest (applyHit c others j) (i + 1) skipI true
      | none => insertPassAux rest others (i + 1)
          (if overlap then skipI else i) overlap

/-- The `while overlap` loop of `PolyCuboid::insert`, with an explicit fuel
parameter: each loop iteration runs one pass over `members.drop skipI`
(the iterator `self.iter().skip(skip_i)` is rebuilt each iteration) and
either terminates (`overlap` stayed false) or loops with the updated
worklist and skip index.  `none` models non-termination. -/
def insertLoopF : Nat → List Cuboid → List Cuboid → Nat → Option (List Cuboid)
  | 0, _, _, _ => none
  | fuel + 1, members, others, skipI =>
      let r := insertPassAux (members.drop skipI) others 0 skipI false
      if r.2.2 then insertLoopF fuel members r.1 r.2.1 else some r.1

namespace PolyCuboid

/-- `PolyCuboid::insert`: seed the worklist with the new box, run the
fixed-point loop, then append the surviving pieces to the members.  The
fuel `(cells other).card + 1` is an upper bound on the number of loop
iterations proved sufficient below (each `overlap` iteration strictly
shrinks the total worklist cell count). -/
def insert (members : List Cuboid) (other : Cuboid) : Option (List Cuboid) :=
  (insertLoopF (other.cells.card + 1) members [other] 0).map
    (fun others => members ++ others)

/-- `PolyCuboid::delete`: replace every member by its difference with the
doomed box and concatenate the results. -/
def delete (members : List Cuboid) (other : Cuboid) : List Cuboid :=
  members.flatMap (fun c => c.difference other)

/-- `PolyCuboid::volume`: fold of member volumes. -/
def volume (members : List Cuboid) : Int :=
  members.foldl (fun acc c => acc + c.volume) 0

end PolyCuboid

/-! ### `PolyHashCuboid`, the voxel-hash-set oracle

`insert` loops over `x0..=x1`, `y0..=y1`, `z0..=z1` inserting every unit
cell into a `HashSet`; `delete` removes them; `volume` is the set's
cardinality.  The set of cells touched by the loops is exactly
`Cuboid.cells` (empty when some axis is inverted, matching the empty Rust
range), so the state is modelled as a `Finset` of voxels. -/

namespace PolyHashCuboid

def insert (s : Finset (Int × Int × Int)) (other : Cuboid) :
    Finset (Int × Int × Int) :=
  s ∪ other.cells

def delete (s : Finset (Int × Int × Int)) (other : Cuboid) :
    Finset (Int × Int × Int) :=
  s \ other.cells

def volume (s : Finset (Int × Int × Int)) : Int := (s.card : Int)

end PolyHashCuboid

/-- An operation of the driver: `on` maps to insert, `off` to delete. -/
inductive Op where
  | ins (c : Cuboid)
  | del (c : Cuboid)
deriving DecidableEq, Repr

def Op.box : Op → Cuboid
  | .ins c => c
  | .del c => c

/-- Run a sequence of operations on a `PolyCuboid` state (`none` once an
insert runs out of fuel, which is proved impossible for valid inputs). -/
def runPolyFrom (p : List Cuboid) : List Op → Option (List Cuboid)
  | [] => some p
  | .ins c :: rest =>
      match PolyCuboid.insert p c with
      | none => none
      | some p' => runPolyFrom p' rest
  | .del c :: rest => runPolyFrom (PolyCuboid.delete p c) rest

def runPoly (ops : List Op) : Option (List Cuboid) := runPolyFrom [] ops

/-- Run the same sequence on the voxel-hash-set oracle. -/
def runHashFrom (s : Finset (Int × Int × Int)) : List Op → Finset (Int × Int × Int)
  | [] => s
  | .ins c :: rest => runHashFrom (PolyHashCuboid.insert s c) rest
  | .del c :: rest => runHashFrom (PolyHashCuboid.delete s c) rest

def runHash (ops : List Op) : Finset (Int × Int × Int) := runHashFrom ∅ ops

/-- The unoptimized fixed-point loop.  Modelled from the spec: the
worklist algorithm without the "no more overlap found starting from
index k" skip optimization — every pass re-scans all existing members
from the start against every worklist piece. -/
def insertLoopNoSkipF : Nat → List Cuboid → List Cuboid → Option (List Cuboid)
  | 0, _, _ => none
  | fuel + 1, members, others =>
      let r := insertPassAux members others 0 0 false
      if r.2.2 then insertLoopNoSkipF fuel members r.1 else some r.1

/-- `PolyCuboid::insert` without the skip optimization (spec-side variant
for the refinement claim). -/
def PolyCuboid.insertNoSkip (members : List Cuboid) (other : Cuboid) :
    Option (List Cuboid) :=
  (insertLoopNoSkipF (other.cells.card + 1) members [other]).map
    (fun others => members ++ others)

section InsertMachinery

open Cuboid

theorem swapRemove_eq_of_getLast {α : Type} {l : List α} {a : α} (j : Nat)
    (h : l.getLast? = some a) : swapRemove l j = (l.set j a).dropLast := by
  unfold swapRemove
  rw [h]

theorem swapRemove_cons_succ {α : Type} (x y : α) (ys : List α) (j : Nat) :
    swapRemove (x :: y :: ys) (j + 1) = x :: swapRemove (y :: ys) j := by
  have hgl : (y :: ys).getLast? = some ((y :: ys).getLast (by simp)) :=
    List.getLast?_eq_getLast _ (by simp)
  rw [swapRemove_eq_of_getLast (j + 1) (by rw [List.getLast?_cons_cons]; exact hgl),
      swapRemove_eq_of_getLast j hgl, List.set_cons_succ]
  rw [List.dropLast_cons_of_ne_nil (by
    intro hnil
    have hlen := congrArg List.length hnil
    simp [List.length_set] at hlen)]

theorem swapRemove_perm {α : Type} (l : List α) (j : Nat) (h : j < l.length) :
    (swapRemove l j).Perm (l.eraseIdx j) := by
  induction l generalizing j with
  | nil => simp at h
  | cons x xs ih =>
      cases j with
      | zero =>
          cases xs with
          | nil => simp [swapRemove]
          | cons y ys =>
              have hg : swapRemove (x :: y :: ys) 0 =
                  (y :: ys).getLast (by simp) :: (y :: ys).dropLast := by
                rw [swapRemove_eq_of_getLast 0 (by
                  rw [List.getLast?_cons_cons]
                  exact List.getLast?_eq_getLast _ (by simp))]
                rw [List.set_cons_zero, List.dropLast_cons₂]
              rw [hg, List.eraseIdx_cons_zero]
              have h2 : (y :: ys).dropLast ++ [(y :: ys).getLast (by simp)] = y :: ys :=
                List.dropLast_append_getLast (by simp)
              conv_rhs => rw [← h2]
              exact @List.perm_append_comm _ [(y :: ys).getLast (by simp)]
                ((y :: ys).dropLast)
      | succ j =>
          cases xs with
          | nil => simp at h
          | cons y ys =>
              rw [swapRemove_cons_succ, List.eraseIdx_cons_succ]
              exact (ih j (by simpa using h)).cons x

theorem mem_swapRemove {α : Type} {l : List α} {j : Nat} (h : j < l.length) :
    ∀ x ∈ swapRemove l j, x ∈ l := fun x hx =>
  (List.eraseIdx_sublist l j).subset ((swapRemove_perm l j h).mem_iff.mp hx)

theorem getElem_cons_eraseIdx_perm {α : Type} (l : List α) (j : Nat)
    (h : j < l.length) : l.Perm (l[j] :: l.eraseIdx j) := by
  conv_lhs => rw [← List.take_append_drop j l]
  rw [List.drop_eq_getElem_cons h, List.eraseIdx_eq_take_drop_succ]
  exact List.perm_middle

theorem hitIndex_none {c : Cuboid} {others : List Cuboid}
    (h : hitIndex c others = none) :
    ∀ p ∈ others, c.contains p = false ∧ p.intersects c = false := by
  unfold hitIndex at h
  rw [List.findIdx?_eq_none_iff] at h
  intro p hp
  have hb := h p hp
  rw [Bool.or_eq_false_iff] at hb
  exact hb

theorem hitIndex_some {c : Cuboid} {others : List Cuboid} {j : Nat}
    (h : hitIndex c others = some j) :
    ∃ hj : j < others.length,
      (c.contains others[j] || others[j].intersects c) = true := by
  unfold hitIndex at h
  rw [List.findIdx?_eq_some_iff_findIdx_eq] at h
  obtain ⟨hj, hidx⟩ := h
  refine ⟨hj, ?_⟩
  subst hidx
  exact @List.findIdx_getElem _ _ others hj

end InsertMachinery

section PassSpec

open Cuboid

theorem applyHit_spec {c : Cuboid} {others : List Cuboid} {j : Nat}
    (hc : c.valid) (hov : ∀ p ∈ others, p.valid) (hpw : List.Pairwise cdisj others)
    (hj : j < others.length)
    (hhit : (c.contains others[j] || others[j].intersects c) = true) :
    (∀ p ∈ applyHit c others j, p.valid) ∧
    List.Pairwise cdisj (applyHit c others j) ∧
    (∀ q, q ∈ cellsOfList (applyHit c others j) → q ∈ cellsOfList others) ∧
    (∀ q, q ∈ cellsOfList others → q ∉ c.cells →
      q ∈ cellsOfList (applyHit c others j)) ∧
    totalCells (applyHit c others j) < totalCells others := by
  have hget : others[j]? = some others[j] := List.getElem?_eq_getElem hj
  have hpj : others[j] ∈ others := List.getElem_mem hj
  have hpval : others[j].valid := hov _ hpj
  have hperm := getElem_cons_eraseIdx_perm others j hj
  have hsw := swapRemove_perm others j hj
  have hcells : cellsOfList others =
      others[j].cells ∪ cellsOfList (others.eraseIdx j) := by
    rw [cellsOfList_perm hperm, cellsOfList_cons]
  have hswc : cellsOfList (swapRemove others j) = cellsOfList (others.eraseIdx j) :=
    cellsOfList_perm hsw
  have htc : totalCells others =
      others[j].cells.card + totalCells (others.eraseIdx j) := by
    rw [totalCells_perm hperm, totalCells_cons]
  have hswt : totalCells (swapRemove others j) = totalCells (others.eraseIdx j) :=
    totalCells_perm hsw
  have hpwE : List.Pairwise cdisj (others[j] :: others.eraseIdx j) :=
    (List.Perm.pairwise_iff cdisj_symmetric hperm).mp hpw
  rw [List.pairwise_cons] at hpwE
  have hswPw : List.Pairwise cdisj (swapRemove others j) :=
    (List.Perm.pairwise_iff cdisj_symmetric hsw).mpr hpwE.2
  have hswMem := mem_swapRemove hj
  have hswValid : ∀ p ∈ swapRemove others j, p.valid := fun p hp => hov p (hswMem p hp)
  unfold applyHit
  rw [hget]
  dsimp only
  by_cases hcont : c.contains others[j] = true
  · rw [if_pos hcont]
    have hsubc := cells_subset_of_contains hcont
    refine ⟨hswValid, hswPw, ?_, ?_, ?_⟩
    · intro q hq
      rw [hswc] at hq
      rw [hcells]
      exact Finset.mem_union_right _ hq
    · intro q hq hqc
      rw [hcells, Finset.mem_union] at hq
      rcases hq with hq | hq
      · exact absurd (hsubc hq) hqc
      · rw [hswc]; exact hq
    · have := card_cells_pos hpval
      omega
  · rw [if_neg hcont]
    have hint : others[j].intersects c = true := by
      rw [Bool.or_eq_true] at hhit
      rcases hhit with h | h
      · exact absurd h hcont
      · exact h
    have hdval := difference_valid hpval hc
    have hdpw := difference_pairwise hpval hc
    have hdc := difference_cells hpval hc
    have hdsub := difference_cells_subset hpval hc
    refine ⟨?_, ?_, ?_, ?_, ?_⟩
    · intro p hp
      rcases List.mem_append.mp hp with hp | hp
      · exact hswValid p hp
      · exact hdval p hp
    · rw [List.pairwise_append]
      refine ⟨hswPw, hdpw, ?_⟩
      intro a ha b hb q hqa hqb
      have haE : a ∈ others.eraseIdx j := hsw.mem_iff.mp ha
      have hda : cdisj others[j] a := hpwE.1 a haE
      exact (cdisj_symmetric hda) q hqa (hdsub b hb hqb)
    · intro q hq
      rw [cellsOfList_append, Finset.mem_union] at hq
      rw [hcells, Finset.mem_union]
      rcases hq with hq | hq
      · right; rw [hswc] at hq; exact hq
      · left
        have : q ∈ others[j].cells \ c.cells := hdc ▸ hq
        exact (Finset.mem_sdiff.mp this).1
    · intro q hq hqc
      rw [cellsOfList_append, Finset.mem_union]
      rw [hcells, Finset.mem_union] at hq
      rcases hq with hq | hq
      · right; rw [hdc, Finset.mem_sdiff]; exact ⟨hq, hqc⟩
      · left; rw [hswc]; exact hq
    · rw [totalCells_append, hswt]
      have hdt : totalCells (others[j].difference c) =
          (others[j].cells \ c.cells).card := by
        rw [totalCells_eq_card hdpw, hdc]
      have hlt : (others[j].cells \ c.cells).card < others[j].cells.card := by
        obtain ⟨q, hq1, hq2⟩ := (intersects_iff_nonempty hpval hc).mp hint
        apply Finset.card_lt_card
        rw [Finset.ssubset_iff_of_subset Finset.sdiff_subset]
        exact ⟨q, hq1, by simp [hq2]⟩
      omega

/-- Everything one pass of the insert loop guarantees about its output
`r = insertPassAux ms others i skipI ov`. -/
structure PassOut (ms others : List Cuboid) (i skipI : Nat) (ov : Bool)
    (r : List Cuboid × Nat × Bool) : Prop where
  vld : ∀ p ∈ r.1, p.valid
  pw : List.Pairwise cdisj r.1
  csub : ∀ q, q ∈ cellsOfList r.1 → q ∈ cellsOfList others
  clow : ∀ q, q ∈ cellsOfList others → q ∉ cellsOfList ms → q ∈ cellsOfList r.1
  tle : totalCells r.1 ≤ totalCells others
  noov : r.2.2 = false → ov = false ∧ r.1 = others ∧
    ∀ m ∈ ms, ∀ p ∈ others, m.contains p = false ∧ p.intersects m = false
  yesov : r.2.2 = true → ov = true ∨ totalCells r.1 < totalCells others
  skipInv : r.2.1 = skipI ∨ (ov = false ∧ ∃ k, r.2.1 = i + k ∧
    ∀ m ∈ ms.take (k + 1), ∀ q ∈ m.cells, q ∉ cellsOfList others)

theorem clean_of_nohit {c : Cuboid} {others : List Cuboid}
    (h : ∀ p ∈ others, c.contains p = false ∧ p.intersects c = false) :
    ∀ q ∈ c.cells, q ∉ cellsOfList others := by
  intro q hq hmem
  obtain ⟨p, hp, hqp⟩ := mem_cellsOfList.mp hmem
  exact cdisj_of_intersects_eq_false (h p hp).2 q hqp hq

end PassSpec

theorem insertPassAux_spec :
    ∀ (ms others : List Cuboid) (i skipI : Nat) (ov : Bool),
    (∀ m ∈ ms, m.valid) → (∀ p ∈ others, p.valid) → List.Pairwise cdisj others →
    PassOut ms others i skipI ov (insertPassAux ms others i skipI ov) := by
  intro ms
  induction ms with
  | nil =>
      intro others i skipI ov hms hov hpw
      refine ⟨hov, hpw, fun q hq => hq, fun q hq _ => hq, le_refl _, ?_, ?_, Or.inl rfl⟩
      · intro h
        exact ⟨h, rfl, by simp⟩
      · intro h
        exact Or.inl h
  | cons c rest ih =>
      intro others i skipI ov hms hov hpw
      have hcval : c.valid := hms c (List.mem_cons_self c rest)
      have hrest : ∀ m ∈ rest, m.valid := fun m hm => hms m (List.mem_cons_of_mem c hm)
      cases hhit : hitIndex c others with
      | some j =>
          obtain ⟨hj, hpred⟩ := hitIndex_some hhit
          obtain ⟨haV, haPw, haSub, haLow, haLt⟩ := applyHit_spec hcval hov hpw hj hpred
          have heq : insertPassAux (c :: rest) others i skipI ov =
              insertPassAux rest (applyHit c others j) (i + 1) skipI true := by
            simp only [insertPassAux, hhit]
          rw [heq]
          have IH := ih (applyHit c others j) (i + 1) skipI true hrest haV haPw
          refine ⟨IH.vld, IH.pw, ?_, ?_, ?_, ?_, ?_, ?_⟩
          · intro q hq
            exact haSub q (IH.csub q hq)
          · intro q hq hqms
            rw [cellsOfList_cons, Finset.mem_union] at hqms
            push_neg at hqms
            exact IH.clow q (haLow q hq hqms.1) hqms.2
          · exact le_trans IH.tle (le_of_lt haLt)
          · intro h
            obtain ⟨h1, _, _⟩ := IH.noov h
            exact absurd h1 (by simp)
          · intro _
            exact Or.inr (lt_of_le_of_lt IH.tle haLt)
          · rcases IH.skipInv with h | ⟨h1, _⟩
            · exact Or.inl h
            · exact absurd h1 (by simp)
      | none =>
          have hnone := hitIndex_none hhit
          have hcclean := clean_of_nohit hnone
          cases ov with
          | true =>
              have heq : insertPassAux (c :: rest) others i skipI true =
                  insertPassAux rest others (i + 1) skipI true := by
                simp [insertPassAux, hhit]
              rw [heq]
              have IH := ih others (i + 1) skipI true hrest hov hpw
              refine ⟨IH.vld, IH.pw, IH.csub, ?_, IH.tle, ?_, IH.yesov, ?_⟩
              · intro q hq hqms
                rw [cellsOfList_cons, Finset.mem_union] at hqms
                push_neg at hqms
                exact IH.clow q hq hqms.2
              · intro h
                obtain ⟨h1, _, _⟩ := IH.noov h
                exact absurd h1 (by simp)
              · rcases IH.skipInv with h | ⟨h1, _⟩
                · exact Or.inl h
                · exact absurd h1 (by simp)
          | false =>
              have heq : insertPassAux (c :: rest) others i skipI false =
                  insertPassAux rest others (i + 1) i false := by
                simp [insertPassAux, hhit]
              rw [heq]
              have IH := ih others (i + 1) i false hrest hov hpw
              refine ⟨IH.vld, IH.pw, IH.csub, ?_, IH.tle, ?_, IH.yesov, ?_⟩
              · intro q hq hqms
                rw [cellsOfList_cons, Finset.mem_union] at hqms
                push_neg at hqms
                exact IH.clow q hq hqms.2
              · intro h
                obtain ⟨_, h2, h3⟩ := IH.noov h
                refine ⟨rfl, h2, ?_⟩
                intro m hm p hp
                rcases List.mem_cons.mp hm with rfl | hm
                · exact hnone p hp
                · exact h3 m hm p hp
              · rcases IH.skipInv with h | ⟨_, k, hk, hclean⟩
                · refine Or.inr ⟨rfl, 0, by omega, ?_⟩
                  intro m hm
                  simp only [List.take_succ_cons, List.take_zero,
                    List.mem_singleton] at hm
                  exact hm ▸ hcclean
                · refine Or.inr ⟨rfl, k + 1, by omega, ?_⟩
                  intro m hm
                  rw [List.take_succ_cons, List.mem_cons] at hm
                  rcases hm with rfl | hm
                  · exact hcclean
                  · exact hclean m hm

section LoopSpec

open Cuboid

/-- Invariant of the `while overlap` loop of `PolyCuboid::insert`: worklist
pieces are valid and pairwise disjoint, and every member strictly below
the skip index is already known to be cell-disjoint from the whole
worklist (the soundness of the skip optimization). -/
structure LoopInv (members others : List Cuboid) (skipI : Nat) : Prop where
  mv : ∀ m ∈ members, m.valid
  ov : ∀ p ∈ others, p.valid
  opw : List.Pairwise cdisj others
  skipClean : ∀ m ∈ members.take skipI, ∀ q ∈ m.cells, q ∉ cellsOfList others

theorem cellsOfList_mono {l₁ l₂ : List Cuboid} (h : l₁ ⊆ l₂) :
    ∀ q, q ∈ cellsOfList l₁ → q ∈ cellsOfList l₂ := by
  intro q hq
  obtain ⟨p, hp, hqp⟩ := mem_cellsOfList.mp hq
  exact mem_cellsOfList.mpr ⟨p, h hp, hqp⟩

theorem pass_preserves {members others : List Cuboid} {skipI : Nat}
    (inv : LoopInv members others skipI) :
    LoopInv members (insertPassAux (members.drop skipI) others 0 skipI false).1
        (insertPassAux (members.drop skipI) others 0 skipI false).2.1 ∧
    (∀ q, q ∈ cellsOfList (insertPassAux (members.drop skipI) others 0 skipI false).1 →
      q ∈ cellsOfList others) ∧
    (∀ q, q ∈ cellsOfList others → q ∉ cellsOfList members →
      q ∈ cellsOfList (insertPassAux (members.drop skipI) others 0 skipI false).1) ∧
    totalCells (insertPassAux (members.drop skipI) others 0 skipI false).1 ≤
      totalCells others ∧
    ((insertPassAux (members.drop skipI) others 0 skipI false).2.2 = true →
      totalCells (insertPassAux (members.drop skipI) others 0 skipI false).1 <
        totalCells others) ∧
    ((insertPassAux (members.drop skipI) others 0 skipI false).2.2 = false →
      (insertPassAux (members.drop skipI) others 0 skipI false).1 = others ∧
      ∀ m ∈ members,
        ∀ p ∈ (insertPassAux (members.drop skipI) others 0 skipI false).1,
          ∀ q ∈ m.cells, q ∉ p.cells) := by
  have hdropv : ∀ m ∈ members.drop skipI, m.valid :=
    fun m hm => inv.mv m (List.drop_subset skipI members hm)
  have P := insertPassAux_spec (members.drop skipI) others 0 skipI false
    hdropv inv.ov inv.opw
  refine ⟨?_, P.csub, ?_, P.tle, ?_, ?_⟩
  · refine ⟨inv.mv, P.vld, P.pw, ?_⟩
    rcases P.skipInv with hsk | ⟨_, k, hk, hclean⟩
    · rw [hsk]
      intro m hm q hq hmem
      exact inv.skipClean m hm q hq (P.csub q hmem)
    · rw [hk]
      intro m hm q hq hmem
      have hm' : m ∈ members.take (skipI + (k + 1)) := by
        have h1 : m ∈ (members.take (skipI + (k + 1))).take (0 + k) := by
          rw [List.take_take]
          rwa [min_eq_left (by omega)]
        exact List.take_subset _ _ h1
      rw [List.take_add] at hm'
      rcases List.mem_append.mp hm' with hm' | hm'
      · exact inv.skipClean m hm' q hq (P.csub q hmem)
      · exact hclean m hm' q hq (P.csub q hmem)
  · intro q hq hqm
    refine P.clow q hq ?_
    intro hqd
    exact hqm (cellsOfList_mono (List.drop_subset skipI members) q hqd)
  · intro h
    rcases P.yesov h with h' | h'
    · exact absurd h' (by simp)
    · exact h'
  · intro h
    obtain ⟨_, heq, hnohit⟩ := P.noov h
    refine ⟨heq, ?_⟩
    intro m hm p hp q hq hqp
    rw [heq] at hp
    have hmsplit := List.take_append_drop skipI members
    rw [← hmsplit] at hm
    rcases List.mem_append.mp hm with hm' | hm'
    · exact inv.skipClean m hm' q hq (mem_cellsOfList.mpr ⟨p, hp, hqp⟩)
    · exact cdisj_of_intersects_eq_false (hnohit m hm' p hp).2 q hqp hq

theorem insertLoopF_spec :
    ∀ (fuel : Nat) (members others : List Cuboid) (skipI : Nat),
    LoopInv members others skipI → totalCells others < fuel →
    ∃ res, insertLoopF fuel members others skipI = some res ∧
      (∀ p ∈ res, p.valid) ∧ List.Pairwise cdisj res ∧
      (∀ q, q ∈ cellsOfList res → q ∈ cellsOfList others) ∧
      (∀ q, q ∈ cellsOfList others → q ∉ cellsOfList members → q ∈ cellsOfList res) ∧
      (∀ m ∈ members, ∀ p ∈ res, ∀ q ∈ m.cells, q ∉ p.cells) := by
  intro fuel
  induction fuel with
  | zero =>
      intro members others skipI _ hf
      omega
  | succ fuel ihf =>
      intro members others skipI inv hf
      obtain ⟨inv', hsub, hlow, hle, hstrict, hdone⟩ := pass_preserves inv
      by_cases hov2 : (insertPassAux (members.drop skipI) others 0 skipI false).2.2 = true
      · have hf' : totalCells (insertPassAux (members.drop skipI) others 0 skipI false).1
            < fuel := by
          have := hstrict hov2
          omega
        obtain ⟨res, hres, hva, hpwa, hsuba, hlowa, hcleana⟩ :=
          ihf members _ _ inv' hf'
        refine ⟨res, ?_, hva, hpwa, ?_, ?_, hcleana⟩
        · show insertLoopF (fuel + 1) members others skipI = some res
          unfold insertLoopF
          rw [if_pos hov2]
          exact hres
        · intro q hq
          exact hsub q (hsuba q hq)
        · intro q hq hqm
          exact hlowa q (hlow q hq hqm) hqm
      · rw [Bool.not_eq_true] at hov2
        obtain ⟨heq, hclean⟩ := hdone hov2
        refine ⟨(insertPassAux (members.drop skipI) others 0 skipI false).1, ?_,
          inv'.ov, inv'.opw, hsub, hlow, hclean⟩
        unfold insertLoopF
        rw [if_neg (by rw [hov2]; exact Bool.false_ne_true)]

end LoopSpec

section StateSpec

open Cuboid

theorem insert_spec {members : List Cuboid} {c : Cuboid}
    (hm : ∀ m ∈ members, m.valid) (hpw : List.Pairwise cdisj members)
    (hc : c.valid) :
    ∃ res, PolyCuboid.insert members c = some res ∧
      (∀ p ∈ res, p.valid) ∧ List.Pairwise cdisj res ∧
      cellsOfList res = cellsOfList members ∪ c.cells := by
  have inv : LoopInv members [c] 0 := by
    refine ⟨hm, ?_, ?_, ?_⟩
    · intro p hp
      rw [List.mem_singleton] at hp
      exact hp ▸ hc
    · simp
    · simp
  have hfuel : totalCells [c] < c.cells.card + 1 := by
    unfold totalCells
    simp
  obtain ⟨others', hrun, oval, opw2, osub, olow, oclean⟩ :=
    insertLoopF_spec (c.cells.card + 1) members [c] 0 inv hfuel
  refine ⟨members ++ others', ?_, ?_, ?_, ?_⟩
  · unfold PolyCuboid.insert
    rw [hrun]
    rfl
  · intro p hp
    rcases List.mem_append.mp hp with hp | hp
    · exact hm p hp
    · exact oval p hp
  · rw [List.pairwise_append]
    exact ⟨hpw, opw2, fun m hm' p hp => oclean m hm' p hp⟩
  · ext q
    rw [cellsOfList_append, Finset.mem_union, Finset.mem_union]
    constructor
    · rintro (hq | hq)
      · exact Or.inl hq
      · have := osub q hq
        rw [cellsOfList_cons] at this
        rcases Finset.mem_union.mp this with h | h
        · exact Or.inr h
        · simp [cellsOfList] at h
    · rintro (hq | hq)
      · exact Or.inl hq
      · by_cases hqm : q ∈ cellsOfList members
        · exact Or.inl hqm
        · refine Or.inr (olow q ?_ hqm)
          rw [cellsOfList_cons, Finset.mem_union]
          exact Or.inl hq

theorem delete_spec {members : List Cuboid} {c : Cuboid}
    (hm : ∀ m ∈ members, m.valid) (hpw : List.Pairwise cdisj members)
    (hc : c.valid) :
    (∀ p ∈ PolyCuboid.delete members c, p.valid) ∧
    List.Pairwise cdisj (PolyCuboid.delete members c) ∧
    cellsOfList (PolyCuboid.delete members c) = cellsOfList members \ c.cells := by
  unfold PolyCuboid.delete
  refine ⟨?_, ?_, ?_⟩
  · intro p hp
    obtain ⟨m, hm', hpm⟩ := List.mem_flatMap.mp hp
    exact difference_valid (hm m hm') hc p hpm
  · rw [List.pairwise_flatMap]
    refine ⟨fun m hm' => difference_pairwise (hm m hm') hc, ?_⟩
    apply hpw.imp_of_mem
    intro a b ha hb hab x hx y hy q hqx hqy
    exact hab q (difference_cells_subset (hm a ha) hc x hx hqx)
      (difference_cells_subset (hm b hb) hc y hy hqy)
  · ext q
    rw [Finset.mem_sdiff, mem_cellsOfList]
    constructor
    · rintro ⟨p, hp, hqp⟩
      obtain ⟨m, hm', hpm⟩ := List.mem_flatMap.mp hp
      have : q ∈ cellsOfList (m.difference c) := mem_cellsOfList.mpr ⟨p, hpm, hqp⟩
      rw [difference_cells (hm m hm') hc, Finset.mem_sdiff] at this
      exact ⟨mem_cellsOfList.mpr ⟨m, hm', this.1⟩, this.2⟩
    · rintro ⟨hq, hqc⟩
      obtain ⟨m, hm', hqm⟩ := mem_cellsOfList.mp hq
      have : q ∈ cellsOfList (m.difference c) := by
        rw [difference_cells (hm m hm') hc, Finset.mem_sdiff]
        exact ⟨hqm, hqc⟩
      obtain ⟨p, hpm, hqp⟩ := mem_cellsOfList.mp this
      exact ⟨p, List.mem_flatMap.mpr ⟨m, hm', hpm⟩, hqp⟩

theorem runPolyFrom_spec :
    ∀ (ops : List Op) (p : List Cuboid),
    (∀ op ∈ ops, (Op.box op).valid) → (∀ m ∈ p, m.valid) → List.Pairwise cdisj p →
    ∃ res, runPolyFrom p ops = some res ∧
      (∀ m ∈ res, m.valid) ∧ List.Pairwise cdisj res ∧
      cellsOfList res = runHashFrom (cellsOfList p) ops := by
  intro ops
  induction ops with
  | nil =>
      intro p _ h2 h3
      exact ⟨p, rfl, h2, h3, rfl⟩
  | cons op rest ih =>
      intro p hops hm hpw
      have hbox : (Op.box op).valid := hops op (List.mem_cons_self _ _)
      have hrest : ∀ o ∈ rest, (Op.box o).valid :=
        fun o ho => hops o (List.mem_cons_of_mem _ ho)
      cases op with
      | ins c =>
          have hboxc : c.valid := hbox
          obtain ⟨p', hp', v', pw', cells'⟩ := insert_spec hm hpw hboxc
          obtain ⟨res, hres, hv, hpw2, hc2⟩ := ih p' hrest v' pw'
          refine ⟨res, ?_, hv, hpw2, ?_⟩
          · unfold runPolyFrom
            rw [hp']
            exact hres
          · rw [hc2, cells']
            rfl
      | del c =>
          have hboxc : c.valid := hbox
          obtain ⟨v', pw', cells'⟩ := delete_spec hm hpw hboxc
          obtain ⟨res, hres, hv, hpw2, hc2⟩ := ih _ hrest v' pw'
          refine ⟨res, ?_, hv, hpw2, ?_⟩
          · simp only [runPolyFrom]
            exact hres
          · rw [hc2, cells']
            rfl

theorem volume_eq_card_of_state {p : List Cuboid}
    (hm : ∀ m ∈ p, m.valid) (hpw : List.Pairwise cdisj p) :
    PolyCuboid.volume p = ((cellsOfList p).card : Int) := by
  unfold PolyCuboid.volume
  rw [foldl_add_volume, sum_volumes_eq_card hm hpw]
  ring

end StateSpec

section NoSkipEquivalence

open Cuboid

theorem insertPassAux_indep :
    ∀ (ms others : List Cuboid) (i s i' s' : Nat) (ov : Bool),
    (insertPassAux ms others i s ov).1 = (insertPassAux ms others i' s' ov).1 ∧
    (insertPassAux ms others i s ov).2.2 = (insertPassAux ms others i' s' ov).2.2 := by
  intro ms
  induction ms with
  | nil =>
      intro others i s i' s' ov
      exact ⟨rfl, rfl⟩
  | cons c rest ih =>
      intro others i s i' s' ov
      cases hhit : hitIndex c others with
      | some j =>
          simp only [insertPassAux, hhit]
          exact ih (applyHit c others j) (i + 1) s (i' + 1) s' true
      | none =>
          simp only [insertPassAux, hhit]
          exact ih others (i + 1) (if ov then s else i) (i' + 1)
            (if ov then s' else i') ov

theorem insertPassAux_clean_prefix :
    ∀ (pre ms others : List Cuboid) (i s i' s' : Nat),
    (∀ m ∈ pre, m.valid) → (∀ p ∈ others, p.valid) →
    (∀ m ∈ pre, ∀ q ∈ m.cells, q ∉ cellsOfList others) →
    (insertPassAux (pre ++ ms) others i s false).1 =
      (insertPassAux ms others i' s' false).1 ∧
    (insertPassAux (pre ++ ms) others i s false).2.2 =
      (insertPassAux ms others i' s' false).2.2 := by
  intro pre
  induction pre with
  | nil =>
      intro ms others i s i' s' _ hov _
      exact insertPassAux_indep ms others i s i' s' false
  | cons m pre ih =>
      intro ms others i s i' s' hpv hov hclean
      have hmv : m.valid := hpv m (List.mem_cons_self _ _)
      have hmnone : hitIndex m others = none := by
        unfold hitIndex
        rw [List.findIdx?_eq_none_iff]
        intro p hp
        rw [Bool.or_eq_false_iff]
        constructor
        · by_contra hcont
          rw [Bool.not_eq_false] at hcont
          obtain ⟨q, hq⟩ := cells_nonempty (hov p hp)
          exact hclean m (List.mem_cons_self _ _) q (cells_subset_of_contains hcont hq)
            (mem_cellsOfList.mpr ⟨p, hp, hq⟩)
        · by_contra hint
          rw [Bool.not_eq_false] at hint
          obtain ⟨q, hq1, hq2⟩ := (intersects_iff_nonempty (hov p hp) hmv).mp hint
          exact hclean m (List.mem_cons_self _ _) q hq2
            (mem_cellsOfList.mpr ⟨p, hp, hq1⟩)
      have hpv' : ∀ a ∈ pre, a.valid :=
        fun a ha => hpv a (List.mem_cons_of_mem _ ha)
      have hclean' : ∀ a ∈ pre, ∀ q ∈ a.cells, q ∉ cellsOfList others :=
        fun a ha => hclean a (List.mem_cons_of_mem _ ha)
      simp only [List.cons_append, insertPassAux, hmnone]
      exact ih ms others (i + 1) i i' s' hpv' hov hclean'

theorem insertLoopF_eq_noskip :
    ∀ (fuel : Nat) (members others : List Cuboid) (skipI : Nat),
    LoopInv members others skipI →
    insertLoopF fuel members others skipI = insertLoopNoSkipF fuel members others := by
  intro fuel
  induction fuel with
  | zero =>
      intros
      rfl
  | succ fuel ihf =>
      intro members others skipI inv
      have hms : members.take skipI ++ members.drop skipI = members :=
        List.take_append_drop skipI members
      have htakev : ∀ m ∈ members.take skipI, m.valid :=
        fun m hm => inv.mv m (List.take_subset _ _ hm)
      obtain ⟨h1, h2⟩ := insertPassAux_clean_prefix (members.take skipI)
        (members.drop skipI) others 0 0 0 skipI htakev inv.ov inv.skipClean
      rw [hms] at h1 h2
      have hinv' := (pass_preserves inv).1
      show (if (insertPassAux (members.drop skipI) others 0 skipI false).2.2 = true
            then insertLoopF fuel members
                   (insertPassAux (members.drop skipI) others 0 skipI false).1
                   (insertPassAux (members.drop skipI) others 0 skipI false).2.1
            else some (insertPassAux (members.drop skipI) others 0 skipI false).1) =
           (if (insertPassAux members others 0 0 false).2.2 = true
            then insertLoopNoSkipF fuel members
                   (insertPassAux members others 0 0 false).1
            else some (insertPassAux members others 0 0 false).1)
      rw [h1, h2]
      by_cases hov2 : (insertPassAux (members.drop skipI) others 0 skipI false).2.2 = true
      · rw [if_pos hov2, if_pos hov2]
        exact ihf members _ _ hinv'
      · rw [if_neg hov2, if_neg hov2]

theorem insert_eq_insertNoSkip {members : List Cuboid} {c : Cuboid}
    (hm : ∀ m ∈ members, m.valid) (hc : c.valid) :
    PolyCuboid.insert members c = PolyCuboid.insertNoSkip members c := by
  have inv : LoopInv members [c] 0 := by
    refine ⟨hm, ?_, ?_, ?_⟩
    · intro p hp
      rw [List.mem_singleton] at hp
      exact hp ▸ hc
    · simp
    · simp
  unfold PolyCuboid.insert PolyCuboid.insertNoSkip
  rw [insertLoopF_eq_noskip (c.cells.card + 1) members [c] 0 inv]

end NoSkipEquivalence

section Claims

open Cuboid

theorem pairwise_intersects_false_of_cdisj {l : List Cuboid}
    (hv : ∀ p ∈ l, p.valid) (hpw : List.Pairwise cdisj l) :
    ∀ (i j : Nat) (hi : i < l.length) (hj : j < l.length), i ≠ j →
      l[i].intersects l[j] = false := by
  intro i j hi hj hne
  rcases Nat.lt_or_ge i j with hlt | hge
  · exact intersects_eq_false_of_cdisj (hv _ (List.getElem_mem hi))
      (hv _ (List.getElem_mem hj))
      (List.pairwise_iff_getElem.mp hpw i j hi hj hlt)
  · have hlt : j < i := by omega
    exact intersects_eq_false_of_cdisj (hv _ (List.getElem_mem hi))
      (hv _ (List.getElem_mem hj))
      (cdisj_symmetric (List.pairwise_iff_getElem.mp hpw j i hj hi hlt))

/-- C1: For every finite sequence of insert/delete operations on valid
boxes applied in order to a freshly created Disjoint Box Set, the
`volume()` reported by `PolyCuboid` equals the number of unit cells
reported by the naive voxel-hash-set oracle (`PolyHashCuboid`) after the
same sequence of operations. -/
theorem C1_volume_refines_voxel_oracle (ops : List Op)
    (h : ∀ op ∈ ops, (Op.box op).valid) :
    ∃ p, runPoly ops = some p ∧
      PolyCuboid.volume p = PolyHashCuboid.volume (runHash ops) := by
  obtain ⟨res, hres, hv, hpw, hc⟩ := runPolyFrom_spec ops [] h (by simp) (by simp)
  refine ⟨res, hres, ?_⟩
  rw [volume_eq_card_of_state hv hpw, hc]
  rfl

theorem C1_volume_refines_voxel_oracle_witness :
    (∀ op ∈ [Op.ins ⟨0, 1, 0, 1, 0, 1⟩, Op.ins ⟨1, 2, 1, 2, 1, 2⟩,
        Op.del ⟨0, 1, 0, 1, 0, 1⟩], (Op.box op).valid) ∧
    (∃ p, runPoly [Op.ins ⟨0, 1, 0, 1, 0, 1⟩, Op.ins ⟨1, 2, 1, 2, 1, 2⟩,
        Op.del ⟨0, 1, 0, 1, 0, 1⟩] = some p ∧
      PolyCuboid.volume p = PolyHashCuboid.volume (runHash
        [Op.ins ⟨0, 1, 0, 1, 0, 1⟩, Op.ins ⟨1, 2, 1, 2, 1, 2⟩,
         Op.del ⟨0, 1, 0, 1, 0, 1⟩])) :=
  ⟨by decide, C1_volume_refines_voxel_oracle _ (by decide)⟩

/-- C2: Starting from the empty `PolyCuboid`, after every sequence of
insert and delete calls with valid boxes, the stored member boxes are
pairwise non-intersecting: for all indices `i ≠ j`,
`cuboids[i].intersects(cuboids[j])` is false. -/
theorem C2_members_pairwise_disjoint (ops : List Op)
    (h : ∀ op ∈ ops, (Op.box op).valid) :
    ∃ p, runPoly ops = some p ∧
      ∀ (i j : Nat) (hi : i < p.length) (hj : j < p.length), i ≠ j →
        p[i].intersects p[j] = false := by
  obtain ⟨res, hres, hv, hpw, _⟩ := runPolyFrom_spec ops [] h (by simp) (by simp)
  exact ⟨res, hres, pairwise_intersects_false_of_cdisj hv hpw⟩

theorem C2_members_pairwise_disjoint_witness :
    (∀ op ∈ [Op.ins ⟨0, 1, 0, 1, 0, 1⟩, Op.ins ⟨1, 2, 1, 2, 1, 2⟩],
        (Op.box op).valid) ∧
    (∃ p, runPoly [Op.ins ⟨0, 1, 0, 1, 0, 1⟩, Op.ins ⟨1, 2, 1, 2, 1, 2⟩] = some p ∧
      ∀ (i j : Nat) (hi : i < p.length) (hj : j < p.length), i ≠ j →
        p[i].intersects p[j] = false) :=
  ⟨by decide, C2_members_pairwise_disjoint _ (by decide)⟩

/-- C3: For all valid boxes `a` and `b`, the boxes returned by
`a.difference(b)` are pairwise disjoint, none of them intersects `b`,
each is contained in `a`, and the sum of their volumes equals
`a.volume()` minus the volume of `a.intersection(b)` (or minus 0 when
there is no intersection). -/
theorem C3_difference_exactness (a b : Cuboid) (ha : a.valid) (hb : b.valid) :
    (∀ (i j : Nat) (hi : i < (a.difference b).length)
       (hj : j < (a.difference b).length), i ≠ j →
       (a.difference b)[i].intersects (a.difference b)[j] = false) ∧
    (∀ p ∈ a.difference b, p.intersects b = false) ∧
    (∀ p ∈ a.difference b, a.contains p = true) ∧
    ((a.difference b).map Cuboid.volume).sum =
      a.volume - (match a.intersection b with
                  | some i => i.volume
                  | none => 0) := by
  refine ⟨pairwise_intersects_false_of_cdisj (difference_valid ha hb)
    (difference_pairwise ha hb), ?_, difference_contains, ?_⟩
  · intro p hp
    apply intersects_eq_false_of_cdisj (difference_valid ha hb p hp) hb
    intro q hqp hqb
    have hq : q ∈ cellsOfList (a.difference b) := mem_cellsOfList.mpr ⟨p, hp, hqp⟩
    rw [difference_cells ha hb, Finset.mem_sdiff] at hq
    exact hq.2 hqb
  · have hsum := sum_volumes_eq_card (difference_valid ha hb) (difference_pairwise ha hb)
    rw [difference_cells ha hb] at hsum
    rw [hsum]
    have hsd : a.cells \ b.cells = a.cells \ (a.cells ∩ b.cells) :=
      (Finset.sdiff_inter_self_left a.cells b.cells).symm
    have hle : (a.cells ∩ b.cells).card ≤ a.cells.card :=
      Finset.card_le_card Finset.inter_subset_left
    rw [hsd, Finset.card_sdiff Finset.inter_subset_left, volume_eq_card ha]
    cases h : a.intersection b with
    | none =>
        have h0 : a.cells ∩ b.cells = ∅ := by
          have hci := cells_intersection a b
          rw [h] at hci
          exact hci.symm
        rw [h0]
        simp
    | some i =>
        dsimp only
        rw [volume_eq_card (intersection_valid ha hb h), cells_intersection_some h]
        omega

theorem C3_difference_exactness_witness :
    (Cuboid.valid ⟨0, 2, 0, 2, 0, 2⟩ ∧ Cuboid.valid ⟨1, 3, 1, 3, 1, 3⟩) ∧
    (((Cuboid.difference ⟨0, 2, 0, 2, 0, 2⟩ ⟨1, 3, 1, 3, 1, 3⟩).map
        Cuboid.volume).sum =
      Cuboid.volume ⟨0, 2, 0, 2, 0, 2⟩ -
        (match Cuboid.intersection ⟨0, 2, 0, 2, 0, 2⟩ ⟨1, 3, 1, 3, 1, 3⟩ with
         | some i => i.volume
         | none => 0)) :=
  ⟨⟨by decide, by decide⟩,
    (C3_difference_exactness ⟨0, 2, 0, 2, 0, 2⟩ ⟨1, 3, 1, 3, 1, 3⟩
      (by decide) (by decide)).2.2.2⟩

/-- C4: For all valid boxes `a` and `b`: if `b` fully contains `a` then
`a.difference(b)` is the empty sequence, and if `a` and `b` do not
intersect then `a.difference(b)` is exactly `[a]`. -/
theorem C4_difference_degenerate_cases (a b : Cuboid) (ha : a.valid)
    (hb : b.valid) :
    (b.contains a = true → a.difference b = []) ∧
    (a.intersects b = false → a.difference b = [a]) :=
  ⟨fun h => difference_of_contains h, fun h => difference_of_not_intersects ha h⟩

theorem C4_difference_degenerate_cases_witness :
    (Cuboid.valid ⟨0, 1, 0, 1, 0, 1⟩ ∧ Cuboid.valid ⟨-1, 2, -1, 2, -1, 2⟩) ∧
    ((Cuboid.contains ⟨-1, 2, -1, 2, -1, 2⟩ ⟨0, 1, 0, 1, 0, 1⟩ = true →
      Cuboid.difference ⟨0, 1, 0, 1, 0, 1⟩ ⟨-1, 2, -1, 2, -1, 2⟩ = []) ∧
     (Cuboid.intersects ⟨0, 1, 0, 1, 0, 1⟩ ⟨-1, 2, -1, 2, -1, 2⟩ = false →
      Cuboid.difference ⟨0, 1, 0, 1, 0, 1⟩ ⟨-1, 2, -1, 2, -1, 2⟩ =
        [⟨0, 1, 0, 1, 0, 1⟩])) :=
  ⟨⟨by decide, by decide⟩,
    C4_difference_degenerate_cases ⟨0, 1, 0, 1, 0, 1⟩ ⟨-1, 2, -1, 2, -1, 2⟩
      (by decide) (by decide)⟩

/-- C5: For every pair of valid boxes `(inner, outer)` with `outer`
containing `inner`, `inner.extensions(outer)` returns at most 26 boxes,
no two of the returned boxes intersect each other, and none of the
returned boxes intersects `inner`. -/
theorem C5_extensions_nonoverlap (inner outer : Cuboid) (hv : inner.valid)
    (ho : outer.valid) (hc : outer.contains inner = true) :
    (inner.extensions outer).length ≤ 26 ∧
    (∀ (i j : Nat) (hi : i < (inner.extensions outer).length)
       (hj : j < (inner.extensions outer).length), i ≠ j →
       (inner.extensions outer)[i].intersects (inner.extensions outer)[j] = false) ∧
    (∀ e ∈ inner.extensions outer, e.intersects inner = false) := by
  refine ⟨extensions_length_le inner outer,
    pairwise_intersects_false_of_cdisj (extensions_valid hv) (extensions_pairwise hv),
    ?_⟩
  intro e he
  exact intersects_eq_false_of_cdisj (extensions_valid hv e he) hv
    (extensions_not_intersect_inner hv e he)

theorem C5_extensions_nonoverlap_witness :
    (Cuboid.valid ⟨0, 1, 0, 1, 0, 1⟩ ∧ Cuboid.valid ⟨-2, 3, -2, 3, -2, 3⟩ ∧
      Cuboid.contains ⟨-2, 3, -2, 3, -2, 3⟩ ⟨0, 1, 0, 1, 0, 1⟩ = true) ∧
    ((Cuboid.extensions ⟨0, 1, 0, 1, 0, 1⟩ ⟨-2, 3, -2, 3, -2, 3⟩).length ≤ 26 ∧
      ∀ e ∈ Cuboid.extensions ⟨0, 1, 0, 1, 0, 1⟩ ⟨-2, 3, -2, 3, -2, 3⟩,
        e.intersects ⟨0, 1, 0, 1, 0, 1⟩ = false) :=
  ⟨⟨by decide, by decide, by decide⟩,
    ⟨(C5_extensions_nonoverlap ⟨0, 1, 0, 1, 0, 1⟩ ⟨-2, 3, -2, 3, -2, 3⟩
        (by decide) (by decide) (by decide)).1,
     (C5_extensions_nonoverlap ⟨0, 1, 0, 1, 0, 1⟩ ⟨-2, 3, -2, 3, -2, 3⟩
        (by decide) (by decide) (by decide)).2.2⟩⟩

/-- C6: Under the precondition that `outer` contains `inner` (both valid),
every one of the 26 candidate coordinate tuples in
`inner.extensions(outer)` that passes the emission filter satisfies
`lo ≤ hi` on all three axes, so the internal `Cuboid::new` (and its
`unwrap`) on the kept candidates can never fail or panic: `new` applied
to a kept candidate's coordinates returns it successfully. -/
theorem C6_kept_candidates_never_panic (inner outer : Cuboid) (hv : inner.valid)
    (ho : outer.valid) (hc : outer.contains inner = true) :
    ∀ cand ∈ Cuboid.candList inner outer, Cuboid.keep outer cand = true →
      Cuboid.new cand.x0 cand.x1 cand.y0 cand.y1 cand.z0 cand.z1 = some cand := by
  intro cand hcand hkeep
  have hmem : cand ∈ inner.extensions outer := List.mem_filter.mpr ⟨hcand, hkeep⟩
  obtain ⟨h1, h2, h3⟩ := extensions_valid hv cand hmem
  unfold Cuboid.new
  rw [if_neg (by omega)]

theorem C6_kept_candidates_never_panic_witness :
    (Cuboid.valid ⟨0, 1, 0, 1, 0, 1⟩ ∧ Cuboid.valid ⟨-2, 3, -2, 3, -2, 3⟩ ∧
      Cuboid.contains ⟨-2, 3, -2, 3, -2, 3⟩ ⟨0, 1, 0, 1, 0, 1⟩ = true) ∧
    (∀ cand ∈ Cuboid.candList ⟨0, 1, 0, 1, 0, 1⟩ ⟨-2, 3, -2, 3, -2, 3⟩,
      Cuboid.keep ⟨-2, 3, -2, 3, -2, 3⟩ cand = true →
      Cuboid.new cand.x0 cand.x1 cand.y0 cand.y1 cand.z0 cand.z1 = some cand) :=
  ⟨⟨by decide, by decide, by decide⟩,
    C6_kept_candidates_never_panic ⟨0, 1, 0, 1, 0, 1⟩ ⟨-2, 3, -2, 3, -2, 3⟩
      (by decide) (by decide) (by decide)⟩

/-- C7: For every box with nonzero extent (`lo < hi`) on all three axes,
`split()` returns 8 pairwise-disjoint octant boxes that together cover
the box exactly (union of octant cells is the box's cells, with no
overlaps), so the sum of the 8 octant volumes equals the box's volume. -/
theorem C7_split_tiling (c : Cuboid) (hx : c.x0 < c.x1) (hy : c.y0 < c.y1)
    (hz : c.z0 < c.z1) :
    ∃ l, c.split = some l ∧ l.length = 8 ∧
      (∀ (i j : Nat) (hi : i < l.length) (hj : j < l.length), i ≠ j →
        l[i].intersects l[j] = false) ∧
      cellsOfList l = c.cells ∧
      (l.map Cuboid.volume).sum = c.volume := by
  obtain ⟨l, hl, hlen, hval, hpw, hcells, hsum⟩ := split_spec hx hy hz
  exact ⟨l, hl, hlen, pairwise_intersects_false_of_cdisj hval hpw, hcells, hsum⟩

theorem C7_split_tiling_witness :
    ((0 : Int) < 1 ∧ (0 : Int) < 1 ∧ (0 : Int) < 1) ∧
    (∃ l, Cuboid.split ⟨0, 1, 0, 1, 0, 1⟩ = some l ∧ l.length = 8 ∧
      (∀ (i j : Nat) (hi : i < l.length) (hj : j < l.length), i ≠ j →
        l[i].intersects l[j] = false) ∧
      cellsOfList l = Cuboid.cells ⟨0, 1, 0, 1, 0, 1⟩ ∧
      (l.map Cuboid.volume).sum = Cuboid.volume ⟨0, 1, 0, 1, 0, 1⟩) :=
  ⟨⟨by decide, by decide, by decide⟩,
    C7_split_tiling ⟨0, 1, 0, 1, 0, 1⟩ (by decide) (by decide) (by decide)⟩

/-- C8, counterexample: the claim says the extra unit goes to the UPPER
half when an axis cell count is odd, i.e. the lower segment holds
`floor(count/2)` cells.  On the box `(0,2,0,2,0,2)` the x-axis cell
count is `3` (odd) and the code's lower x-segment (first octant) is
`[0,1]`, holding `2` cells, not `floor(3/2) = 1`. -/
theorem C8_counterexample :
    ∃ l b, Cuboid.split ⟨0, 2, 0, 2, 0, 2⟩ = some l ∧ l.head? = some b ∧
      ((2 : Int) - 0 + 1) % 2 = 1 ∧
      ¬ (b.x1 - b.x0 + 1 = ((2 : Int) - 0 + 1) / 2) := by
  refine ⟨[⟨0, 1, 0, 1, 0, 1⟩, ⟨2, 2, 0, 1, 0, 1⟩, ⟨0, 1, 2, 2, 0, 1⟩,
    ⟨2, 2, 2, 2, 0, 1⟩, ⟨0, 1, 0, 1, 2, 2⟩, ⟨2, 2, 0, 1, 2, 2⟩,
    ⟨0, 1, 2, 2, 2, 2⟩, ⟨2, 2, 2, 2, 2, 2⟩], ⟨0, 1, 0, 1, 0, 1⟩,
    by decide, rfl, by decide, by decide⟩

/-- C8, amended: `split()` bisects each axis as evenly as possible with
the extra unit going to the LOWER half when the axis cell count is odd:
for every splittable box and every axis whose inclusive cell count is
`2m + 1`, the lower segment of that axis holds `m + 1 = ceil(count/2)`
cells and the upper segment holds `m = floor(count/2)` cells.  (`b0` is
the all-lower octant, `b7` the all-upper octant.) -/
theorem C8_amended_split_halving (c : Cuboid) (hx : c.x0 < c.x1)
    (hy : c.y0 < c.y1) (hz : c.z0 < c.z1) :
    ∃ l b0 b7, c.split = some l ∧ l.head? = some b0 ∧ l.getLast? = some b7 ∧
      (∀ m : Int, c.x1 - c.x0 + 1 = 2 * m + 1 →
        b0.x1 - b0.x0 + 1 = m + 1 ∧ b7.x1 - b7.x0 + 1 = m) ∧
      (∀ m : Int, c.y1 - c.y0 + 1 = 2 * m + 1 →
        b0.y1 - b0.y0 + 1 = m + 1 ∧ b7.y1 - b7.y0 + 1 = m) ∧
      (∀ m : Int, c.z1 - c.z0 + 1 = 2 * m + 1 →
        b0.z1 - b0.z0 + 1 = m + 1 ∧ b7.z1 - b7.z0 + 1 = m) := by
  refine ⟨_,
    ⟨c.x0, c.x0 + (c.x1 - c.x0) / 2, c.y0, c.y0 + (c.y1 - c.y0) / 2,
     c.z0, c.z0 + (c.z1 - c.z0) / 2⟩,
    ⟨c.x0 + ((c.x1 - c.x0) / 2 + 1), c.x1, c.y0 + ((c.y1 - c.y0) / 2 + 1), c.y1,
     c.z0 + ((c.z1 - c.z0) / 2 + 1), c.z1⟩,
    split_eq hx hy hz, rfl, rfl, ?_, ?_, ?_⟩ <;>
    (intro m hm; refine ⟨?_, ?_⟩ <;> (dsimp only; omega))

theorem C8_amended_split_halving_witness :
    ((0 : Int) < 2 ∧ (0 : Int) < 2 ∧ (0 : Int) < 2) ∧
    (∃ l b0 b7, Cuboid.split ⟨0, 2, 0, 2, 0, 2⟩ = some l ∧ l.head? = some b0 ∧
      l.getLast? = some b7 ∧
      (∀ m : Int, (2 : Int) - 0 + 1 = 2 * m + 1 →
        b0.x1 - b0.x0 + 1 = m + 1 ∧ b7.x1 - b7.x0 + 1 = m) ∧
      (∀ m : Int, (2 : Int) - 0 + 1 = 2 * m + 1 →
        b0.y1 - b0.y0 + 1 = m + 1 ∧ b7.y1 - b7.y0 + 1 = m) ∧
      (∀ m : Int, (2 : Int) - 0 + 1 = 2 * m + 1 →
        b0.z1 - b0.z0 + 1 = m + 1 ∧ b7.z1 - b7.z0 + 1 = m)) :=
  ⟨⟨by decide, by decide, by decide⟩,
    C8_amended_split_halving ⟨0, 2, 0, 2, 0, 2⟩ (by decide) (by decide) (by decide)⟩

/-- C9: `PolyCuboid::insert` with the `skip_i` scan-skipping optimization
produces exactly the same final member collection as the unoptimized
fixed-point algorithm that re-scans all existing members from the start:
for every prior operation sequence (of valid boxes) and every valid
inserted box, the two variants yield equal results. -/
theorem C9_skip_optimization_no_effect (ops : List Op) (c : Cuboid)
    (hops : ∀ op ∈ ops, (Op.box op).valid) (hc : c.valid) :
    ∃ p res, runPoly ops = some p ∧
      PolyCuboid.insert p c = some res ∧
      PolyCuboid.insertNoSkip p c = some res := by
  obtain ⟨p, hp, hv, hpw, _⟩ := runPolyFrom_spec ops [] hops (by simp) (by simp)
  obtain ⟨res, hres, _, _, _⟩ := insert_spec hv hpw hc
  refine ⟨p, res, hp, hres, ?_⟩
  rw [← insert_eq_insertNoSkip hv hc]
  exact hres

theorem C9_skip_optimization_no_effect_witness :
    ((∀ op ∈ [Op.ins ⟨0, 1, 0, 1, 0, 1⟩, Op.ins ⟨1, 3, 1, 3, 1, 3⟩],
        (Op.box op).valid) ∧ Cuboid.valid ⟨0, 2, 0, 2, 0, 2⟩) ∧
    (∃ p res, runPoly [Op.ins ⟨0, 1, 0, 1, 0, 1⟩, Op.ins ⟨1, 3, 1, 3, 1, 3⟩] = some p ∧
      PolyCuboid.insert p ⟨0, 2, 0, 2, 0, 2⟩ = some res ∧
      PolyCuboid.insertNoSkip p ⟨0, 2, 0, 2, 0, 2⟩ = some res) :=
  ⟨⟨by decide, by decide⟩,
    C9_skip_optimization_no_effect _ ⟨0, 2, 0, 2, 0, 2⟩ (by decide) (by decide)⟩

/-- C10: Box construction (`new`, and `from_str` after successful parsing
of the three coordinate pairs) returns an error iff some axis has
`lo > hi`; `split` (on a well-formed box) returns an error iff some axis
has `lo == hi`; and for well-formed boxes `intersection`, `difference`,
`union`, and `PolyCuboid` insert/delete always return normally: every
internally constructed box satisfies the `new` invariant (so no `unwrap`
panics) and the `insert` loop terminates (`isSome`). -/
theorem C10_error_taxonomy :
    (∀ x0 x1 y0 y1 z0 z1 : Int,
      Cuboid.new x0 x1 y0 y1 z0 z1 = none ↔ (x0 > x1 ∨ y0 > y1 ∨ z0 > z1)) ∧
    (∀ x0 x1 y0 y1 z0 z1 : Int,
      Cuboid.fromStrParsed x0 x1 y0 y1 z0 z1 = none ↔
        (x0 > x1 ∨ y0 > y1 ∨ z0 > z1)) ∧
    (∀ c : Cuboid, c.valid →
      (c.split = none ↔ (c.x0 = c.x1 ∨ c.y0 = c.y1 ∨ c.z0 = c.z1))) ∧
    (∀ a b : Cuboid, a.valid → b.valid → ∀ i ∈ a.intersection b,
      Cuboid.new i.x0 i.x1 i.y0 i.y1 i.z0 i.z1 = some i) ∧
    (∀ a b : Cuboid, a.valid → b.valid → ∀ p ∈ a.difference b, p.valid) ∧
    (∀ a b : Cuboid, a.valid → b.valid → ∀ p ∈ a.union b, p.valid) ∧
    (∀ (members : List Cuboid) (c : Cuboid), (∀ m ∈ members, m.valid) →
      List.Pairwise cdisj members → c.valid →
      (PolyCuboid.insert members c).isSome = true) ∧
    (∀ (members : List Cuboid) (c : Cuboid), (∀ m ∈ members, m.valid) →
      c.valid → ∀ p ∈ PolyCuboid.delete members c, p.valid) := by
  have hnew : ∀ x0 x1 y0 y1 z0 z1 : Int,
      Cuboid.new x0 x1 y0 y1 z0 z1 = none ↔ (x0 > x1 ∨ y0 > y1 ∨ z0 > z1) := by
    intro x0 x1 y0 y1 z0 z1
    constructor
    · intro h
      by_contra hne
      unfold Cuboid.new at h
      rw [if_neg hne] at h
      exact Option.noConfusion h
    · intro h
      unfold Cuboid.new
      rw [if_pos h]
  refine ⟨hnew, hnew, fun c hc => split_eq_none_iff hc, ?_, ?_, ?_, ?_, ?_⟩
  · intro a b ha hb i hi
    rw [Option.mem_def] at hi
    obtain ⟨h1, h2, h3⟩ := intersection_valid ha hb hi
    unfold Cuboid.new
    rw [if_neg (by omega)]
  · exact fun a b ha hb => difference_valid ha hb
  · intro a b ha hb p hp
    unfold Cuboid.union at hp
    split_ifs at hp with h1 h2 h3
    · rw [List.mem_singleton] at hp
      exact hp ▸ ha
    · rw [List.mem_singleton] at hp
      exact hp ▸ hb
    · rcases List.mem_cons.mp hp with rfl | hp
      · exact ha
      · exact difference_valid hb ha p hp
    · rcases List.mem_cons.mp hp with rfl | hp
      · exact ha
      · rw [List.mem_singleton] at hp
        exact hp ▸ hb
  · intro members c hm hpw hc
    obtain ⟨res, hres, _, _, _⟩ := insert_spec hm hpw hc
    rw [hres]
    rfl
  · intro members c hm hc p hp
    obtain ⟨m, hm', hpm⟩ := List.mem_flatMap.mp hp
    exact difference_valid (hm m hm') hc p hpm

theorem C10_error_taxonomy_witness :
    (Cuboid.new 0 1 0 1 0 1 ≠ none) ∧
    (Cuboid.new 1 0 0 1 0 1 = none) ∧
    (Cuboid.valid ⟨0, 0, 0, 1, 0, 1⟩ ∧ Cuboid.split ⟨0, 0, 0, 1, 0, 1⟩ = none) ∧
    ((∀ m ∈ ([] : List Cuboid), m.valid) ∧ List.Pairwise cdisj ([] : List Cuboid) ∧
      Cuboid.valid ⟨0, 1, 0, 1, 0, 1⟩ ∧
      (PolyCuboid.insert [] ⟨0, 1, 0, 1, 0, 1⟩).isSome = true) := by
  refine ⟨?_, ?_, ⟨by decide, ?_⟩, ⟨by simp, by simp, by decide, ?_⟩⟩
  · intro h
    have := (C10_error_taxonomy.1 0 1 0 1 0 1).mp h
    omega
  · exact (C10_error_taxonomy.1 1 0 0 1 0 1).mpr (by omega)
  · exact (C10_error_taxonomy.2.2.1 ⟨0, 0, 0, 1, 0, 1⟩ (by decide)).mpr
      (by norm_num)
  · exact C10_error_taxonomy.2.2.2.2.2.2.1 [] ⟨0, 1, 0, 1, 0, 1⟩
      (by simp) (by simp) (by decide)

end Claims
